import Mathlib

/-
Verification of the LexicalSearch text pipeline.

JavaScript strings are modelled as `List Char`.  All functions are
translated from the TypeScript source: the segmentation selector
`splitTextIntoParagraphs`, the section restructurer
`processFoundParagraph`, the search loop `handleSearch`, the inline
markup tokenizer `parseMarkdown`, and the paginated word-wrapping
renderer (`addToLine` / `flushLine` inside `exportToPdf`).

Functions whose JavaScript originals advance a cursor by a computed
amount are defined with an explicit fuel argument (initialised with the
input length) so that every definition is structurally recursive and
kernel-evaluable; sufficiency of the fuel is proved where a theorem
needs it.
-/

namespace LexicalSearch

/-- Whitespace test used to model the JS regex class backslash-s and
`String.prototype.trim` (restricted to the ASCII whitespace characters;
the exotic Unicode space code points play no role in any claim). -/
def jsWs (ch : Char) : Bool :=
  ch = ' ' ∨ ch = '\t' ∨ ch = '\n' ∨ ch = '\r' ∨ ch = '\x0b' ∨ ch = '\x0c'

/-- Model of `String.prototype.trim`: drop whitespace from both ends. -/
def trimL (l : List Char) : List Char :=
  ((l.dropWhile jsWs).reverse.dropWhile jsWs).reverse

/-- Model of `String.prototype.toLowerCase` (simple case folding). -/
def lowerL (l : List Char) : List Char :=
  l.map Char.toLower

/-- Model of `String.prototype.split(sep)` for a non-empty literal
separator: non-overlapping leftmost matches.  `fuel` bounds recursion
depth; callers pass the input length, which always suffices because a
match consumes at least one character. -/
def splitSepFuel (sep : List Char) : Nat → List Char → List (List Char)
  | _, [] => [[]]
  | 0, l => [l]
  | fuel + 1, a :: rest =>
    if sep.isPrefixOf (a :: rest) ∧ sep ≠ [] then
      [] :: splitSepFuel sep fuel (rest.drop (sep.length - 1))
    else
      match splitSepFuel sep fuel rest with
      | [] => [[a]]
      | h :: t => (a :: h) :: t

/-- `text.split(sep)` for a literal separator string. -/
def splitSep (sep l : List Char) : List (List Char) :=
  splitSepFuel sep l.length l

/-- Model of `text.split(/\n{2,}/)`: split on maximal runs of two or
more consecutive line feeds (the regex is greedy, so each match is a
maximal run). -/
def splitNl2Fuel : Nat → List Char → List (List Char)
  | _, [] => [[]]
  | 0, l => [l]
  | fuel + 1, '\n' :: '\n' :: rest =>
    [] :: splitNl2Fuel fuel (rest.dropWhile (· = '\n'))
  | fuel + 1, a :: rest =>
    match splitNl2Fuel fuel rest with
    | [] => [[a]]
    | h :: t => (a :: h) :: t

/-- `text.split(/\n{2,}/)`. -/
def splitNl2 (l : List Char) : List (List Char) :=
  splitNl2Fuel l.length l

/-- First stage of line-ending normalization:
`text.replace(/\r\n/g, '\n')`. -/
def replaceCrlf : List Char → List Char
  | '\r' :: '\n' :: rest => '\n' :: replaceCrlf rest
  | a :: rest => a :: replaceCrlf rest
  | [] => []

/-- Second stage: `.replace(/\r/g, '\n')`. -/
def replaceCr (l : List Char) : List Char :=
  l.map fun a => if a = '\r' then '\n' else a

/-- `const normalizedText = text.replace(/\r\n/g,'\n').replace(/\r/g,'\n')`. -/
def normalizeText (l : List Char) : List Char :=
  replaceCr (replaceCrlf l)

/-- The per-candidate post-processing `.filter(p => p.trim())`: discard
results that are empty or whitespace-only (JS string truthiness). -/
def keepNonBlank (ps : List (List Char)) : List (List Char) :=
  ps.filter fun p => !(trimL p).isEmpty

/-- Candidate split of `splitTextIntoParagraphs`: `methods[0]`,
double line-break. -/
def candDouble (t : List Char) : List (List Char) :=
  keepNonBlank (splitSep ['\n', '\n'] t)

/-- Candidate split `methods[1]`: single line-break. -/
def candSingle (t : List Char) : List (List Char) :=
  keepNonBlank (splitSep ['\n'] t)

/-- Candidate split `methods[2]`: triple line-break. -/
def candTriple (t : List Char) : List (List Char) :=
  keepNonBlank (splitSep ['\n', '\n', '\n'] t)

/-- Candidate split `methods[3]`: regex two-or-more line-breaks. -/
def candRegex (t : List Char) : List (List Char) :=
  keepNonBlank (splitNl2 t)

/-- The selection logic of `splitTextIntoParagraphs` (src/unnamed/part_000,
lines 90-101), applied to the already-computed candidate results.  The
third and fourth candidates are computed by the source only for
diagnostics and are never selected. -/
def chooseSplit (m0 m1 : List (List Char)) : List (List Char) :=
  -- let chosenMethod = methods[0]; if (methods[0].result.length < 3 && ...)
  let chosen1 := if m0.length < 3 ∧ m0.length < m1.length then m1 else m0
  -- if (chosenMethod.result.length > 50 && chosenMethod.result.some(p => p.length < 20))
  if 50 < chosen1.length ∧ chosen1.any (fun p => p.length < 20) then m0 else chosen1

/-- Model of `splitTextIntoParagraphs` (the `paragraphs` component; the
`splitInfo` diagnostics are not consumed by any downstream logic). -/
def splitTextIntoParagraphs (text : List Char) : List (List Char) :=
  let n := normalizeText text
  chooseSplit (candDouble n) (candSingle n)

/-- Modelled from the spec's words (section 4.1 step 3), for comparison
with the source's selector: the default candidate is the
double-line-break split; switch to the single-line-break candidate only
when the default yields fewer than 3 paragraphs and the single candidate
yields strictly more; afterwards, if the currently chosen candidate
yields more than 50 paragraphs and at least one of them has fewer than
20 characters, revert to the double-line-break candidate regardless of
the previous step. -/
def selectorSpec (dbl sngl : List (List Char)) : List (List Char) :=
  let afterStep2 :=
    if dbl.length < 3 ∧ dbl.length < sngl.length then sngl else dbl
  if 50 < afterStep2.length ∧ afterStep2.any (fun p => p.length < 20) then
    dbl
  else
    afterStep2

/-- Model of `String.prototype.includes`: substring containment. -/
def containsSub (hay needle : List Char) : Bool :=
  match hay with
  | [] => needle.isEmpty
  | _ :: rest => needle.isPrefixOf hay || containsSub rest needle

/-- Core of the occurrence counter: non-overlapping left-to-right count
of a non-empty literal needle, advancing past each match.  `fuel` bounds
recursion depth (callers pass the haystack length). -/
def countOccFuel (needle : List Char) : Nat → List Char → Nat
  | _, [] => 0
  | 0, _ => 0
  | fuel + 1, a :: rest =>
    if needle.isPrefixOf (a :: rest) then
      1 + countOccFuel needle fuel ((a :: rest).drop needle.length)
    else
      countOccFuel needle fuel rest

/-- Model of the occurrence counter in `handleSearch`
(src/unnamed/part_000, line 265): the search term is regex-escaped
before being compiled with the `g` flag, so the count is the
non-overlapping left-to-right literal-substring count.  The empty-needle
case is unreachable in the pipeline (the query guard rejects
whitespace-only terms) and is fixed at 0 here. -/
def countOcc (needle hay : List Char) : Nat :=
  match needle with
  | [] => 0
  | n :: ns => countOccFuel (n :: ns) hay.length hay

/-- Join a list of sections with single spaces:
`finalParagraphParts.join(' ')`. -/
def joinSpace (parts : List (List Char)) : List Char :=
  List.intercalate [' '] parts

/-- Model of `processFoundParagraph` (src/unnamed/part_000, lines
132-182), the section restructurer.  The source accumulates the kept
sentences with an index-1 for-loop; this is rendered as `take 1` plus a
`filter` over `drop 1`, which produces the same list.  The debug trace
returned alongside the processed text carries no information used by the
restructuring itself and is omitted. -/
def processFoundParagraph (paragraph searchTerm : List Char) : List Char :=
  let processedSearchTerm := lowerL (trimL searchTerm)
  if '|' ∈ paragraph ∧ 3 ≤ (splitSep ['|'] paragraph).length then
    let sentences := (splitSep ['|'] paragraph).map trimL
    joinSpace (sentences.take 1 ++
      (sentences.drop 1).filter fun s =>
        containsSub (lowerL s) processedSearchTerm)
  else
    paragraph

/-- Modelled from the spec's words (section 4.3), for comparison with
the source's restructurer: split on the pipe character, trim every
section, retain the first section unconditionally as the base, retain a
subsequent section if and only if its lower-cased form contains the
normalized term, and join the retained sections with single spaces in
original order. -/
def restructureSpec (paragraph searchTerm : List Char) : List Char :=
  let nt := lowerL (trimL searchTerm)
  let sections := (splitSep ['|'] paragraph).map trimL
  joinSpace (sections.take 1 ++
    (sections.drop 1).filter fun s => containsSub (lowerL s) nt)

/-- Model of the `FileData` record (src/unnamed/part_002): only the
fields read by the search pipeline. -/
structure FileData where
  fid : String
  name : String
  content : List Char
deriving DecidableEq

/-- Model of the `SearchResult` record (src/unnamed/part_002). -/
structure SearchResult where
  fileName : String
  foundParagraphs : List (List Char)
  totalParagraphs : Nat
  occurrenceCount : Nat
deriving DecidableEq

/-- Model of the `DebugInfo` entries pushed by `handleSearch`: one
file-level entry per processed file, and one entry per found paragraph.
Only the fields needed to identify which file an entry refers to are
kept; the free-text payloads are irrelevant to every claim. -/
inductive DebugEntry where
  | fileInfo (fileName : String) (totalParas : Nat)
  | paraInfo (fileName : String) (idx : Nat) (original processed : List Char)
deriving DecidableEq

/-- The file a diagnostic entry refers to. -/
def DebugEntry.fname : DebugEntry → String
  | .fileInfo n _ => n
  | .paraInfo n _ _ _ => n

/-- The paragraph loop of `handleSearch` (src/unnamed/part_000, lines
244-269): filter the paragraphs that contain the normalized term,
process each, count occurrences in the original text, and record a
diagnostic entry per found paragraph.  The JS loop appends to its
accumulators in index order; this recursion produces the same lists. -/
def searchParagraphsAux (fileName : String) (pt term : List Char) :
    Nat → List (List Char) → List (List Char) × Nat × List DebugEntry
  | _, [] => ([], 0, [])
  | i, p :: ps =>
    let r := searchParagraphsAux fileName pt term (i + 1) ps
    if containsSub (lowerL p) pt then
      (processFoundParagraph p term :: r.1,
       countOcc pt (lowerL p) + r.2.1,
       DebugEntry.paraInfo fileName (i + 1) p
         (processFoundParagraph p term) :: r.2.2)
    else r

/-- The paragraph loop, started with the normalized term and index 0. -/
def searchParagraphs (fileName : String) (term : List Char)
    (paras : List (List Char)) : List (List Char) × Nat × List DebugEntry :=
  searchParagraphsAux fileName (lowerL (trimL term)) term 0 paras

/-- Per-file processing in `handleSearch`: segmentation, the file-level
diagnostic entry, and the paragraph loop. -/
def handleFile (term : List Char) (f : FileData) :
    SearchResult × List DebugEntry :=
  let paras := splitTextIntoParagraphs f.content
  let r := searchParagraphs f.name term paras
  (⟨f.name, r.1, paras.length, r.2.1⟩,
   DebugEntry.fileInfo f.name paras.length :: r.2.2)

/-- The file loop of `handleSearch` (src/unnamed/part_000, lines
211-278): a requested id whose file is not found is skipped
(`if (!file) continue;`) and contributes nothing — neither a result nor
a diagnostic entry.  The JS loop appends in id order; this recursion
produces the same lists. -/
def searchCore (files : List FileData) (term : List Char) :
    List String → List SearchResult × List DebugEntry
  | [] => ([], [])
  | fid :: ids =>
    let r := searchCore files term ids
    match files.find? (fun f => f.fid == fid) with
    | none => r
    | some file =>
      let fr := handleFile term file
      (fr.1 :: r.1, fr.2 ++ r.2)

/-- Model of `handleSearch` (src/unnamed/part_000, lines 196-287): the
query guard rejects a whitespace-only term or an empty id set (no work
performed), otherwise the file loop runs. -/
def handleSearch (files : List FileData) (term : List Char)
    (ids : List String) : Option (List SearchResult × List DebugEntry) :=
  if trimL term = [] ∨ ids = [] then none
  else some (searchCore files term ids)

/-- Concrete file set used to exercise `handleSearch` on a request
containing an id with no corresponding document. -/
def demoFiles : List FileData :=
  [⟨"doc1", "doc1.txt", "alpha x\n\nbeta".toList⟩]

/-- The backtick character (code point 96), the code-span marker. -/
def btick : Char := Char.ofNat 96

/-- Model of the `MarkdownElement` union (src/unnamed/part_001, lines
7-11): the typed inline runs produced by `parseMarkdown`. -/
inductive MdElem where
  | text (content : List Char)
  | bold (content : List Char)
  | italic (content : List Char)
  | code (content : List Char)
  | header (level : Nat) (content : List Char)
deriving DecidableEq

/-- The content string carried by a run. -/
def MdElem.content : MdElem → List Char
  | .text c => c
  | .bold c => c
  | .italic c => c
  | .code c => c
  | .header _ c => c

/-- The heading guard `currentIndex === 0 || text[currentIndex-1] === '\n'`,
expressed on the character preceding the scan position (`none` at the
very start of the fragment). -/
def atLineStart : Option Char → Bool
  | none => true
  | some c => c = '\n'

/-- Length of the leading run of hash characters. -/
def hashCount (l : List Char) : Nat :=
  (l.takeWhile (· = '#')).length

/-- Whether the character at offset `k` of `aft` exists and is not a
line feed — the condition for the lazy dot-plus group of the heading
regex to be able to start there. -/
def okAt (aft : List Char) (k : Nat) : Bool :=
  match (aft.drop k).head? with
  | some c => c ≠ '\n'
  | none => false

/-- Backtracking search of the greedy whitespace quantifier in the
heading regex: starting from the maximal whitespace-run length, find the
largest separator length `k ≥ 1` such that the character immediately
after the separator exists and is not a line feed (so that the lazy
dot-plus group can match). -/
def headKBack (aft : List Char) : Nat → Option Nat
  | 0 => none
  | k + 1 => if okAt aft (k + 1) then some (k + 1) else headKBack aft k

/-- Model of the heading regex match
`text.slice(currentIndex).match(/^(#{1,6})\s+(.+?)(?=\n|$)/)`
(src/unnamed/part_001, line 20): returns the heading level, the content,
and the number of characters consumed by the full match.  The hash
quantifier must consume the whole leading hash run (a leftover hash
cannot match the whitespace class), the greedy whitespace class consumes
the longest run that still leaves a non-line-feed character for the lazy
content group (which can require backtracking), and the content is the
run of non-line-feed characters from that point, stopped by the
line-feed-or-end lookahead. -/
def headMatch (l : List Char) : Option (Nat × List Char × Nat) :=
  if 1 ≤ hashCount l ∧ hashCount l ≤ 6 then
    match headKBack (l.drop (hashCount l))
        ((l.drop (hashCount l)).takeWhile jsWs).length with
    | some k =>
      some (hashCount l,
        ((l.drop (hashCount l)).drop k).takeWhile (· ≠ '\n'),
        hashCount l + k +
          (((l.drop (hashCount l)).drop k).takeWhile (· ≠ '\n')).length)
    | none => none
  else none

/-- Model of `String.prototype.indexOf` for a literal needle: index of
the leftmost occurrence. -/
def indexOfSub (needle : List Char) : List Char → Option Nat
  | [] => if needle.isEmpty then some 0 else none
  | a :: rest =>
    if needle.isPrefixOf (a :: rest) then some 0
    else (indexOfSub needle rest).map (· + 1)

/-- The plain-text scan (src/unnamed/part_001, lines 82-95): characters
following the current one are accumulated until the next position where
a construct could start — an asterisk, a backtick, or a hash preceded by
a line feed.  The first argument tracks the preceding character. -/
def plainSpan : Char → List Char → List Char
  | _, [] => []
  | p, c :: cs =>
    if c = '*' ∨ c = btick ∨ (c = '#' ∧ p = '\n') then []
    else c :: plainSpan c cs

/-- Heading branch of the scanner (src/unnamed/part_001, lines 18-30). -/
def stepHeading (prev : Option Char) (a : Char) (rest : List Char) :
    Option (MdElem × Nat) :=
  if a = '#' ∧ atLineStart prev then
    (headMatch (a :: rest)).map fun r => (MdElem.header r.1 r.2.1, r.2.2)
  else none

/-- Bold branch (src/unnamed/part_001, lines 32-45): a double-asterisk
opener, a non-empty content run, and a closing double asterisk found by
forward scan. -/
def stepBold (a : Char) (rest : List Char) : Option (MdElem × Nat) :=
  if a = '*' ∧ rest.head? = some '*' then
    (indexOfSub ['*', '*'] (rest.drop 1)).bind fun e =>
      if 0 < e then some (MdElem.bold ((rest.drop 1).take e), 4 + e)
      else none
  else none

/-- Italic branch (src/unnamed/part_001, lines 47-65): a single asterisk
not doubled on either side, non-empty content, and a closing asterisk
whose following character is not another asterisk. -/
def stepItalic (prev : Option Char) (a : Char) (rest : List Char) :
    Option (MdElem × Nat) :=
  if a = '*' ∧ rest.head? ≠ some '*' ∧ prev ≠ some '*' then
    (indexOfSub ['*'] rest).bind fun e =>
      if 0 < e ∧ (rest.drop (e + 1)).head? ≠ some '*' then
        some (MdElem.italic (rest.take e), 2 + e)
      else none
  else none

/-- Code branch (src/unnamed/part_001, lines 67-80): a backtick,
non-empty content, and a closing backtick. -/
def stepCode (a : Char) (rest : List Char) : Option (MdElem × Nat) :=
  if a = btick then
    (indexOfSub [btick] rest).bind fun e =>
      if 0 < e then some (MdElem.code (rest.take e), 2 + e)
      else none
  else none

/-- Plain-text branch (src/unnamed/part_001, lines 82-104): the current
character plus everything up to the next potential construct start,
emitted as one run.  The slice is never empty, so the `if (textContent)`
guard in the source always passes. -/
def stepPlain (a : Char) (rest : List Char) : MdElem × Nat :=
  let content := a :: plainSpan a rest
  (MdElem.text content, content.length)

/-- One iteration of the `parseMarkdown` scan loop at a non-exhausted
position: the construct checks are tried in source order and the first
match wins; each returns the produced run and the number of characters
consumed. -/
def mdStep (prev : Option Char) (a : Char) (rest : List Char) :
    MdElem × Nat :=
  match stepHeading prev a rest with
  | some r => r
  | none =>
    match stepBold a rest with
    | some r => r
    | none =>
      match stepItalic prev a rest with
      | some r => r
      | none =>
        match stepCode a rest with
        | some r => r
        | none => stepPlain a rest

/-- The scan loop of `parseMarkdown`, with explicit fuel (one unit per
emitted run; the input length suffices because every step consumes at
least one character).  The preceding-character context is threaded as
the last consumed character. -/
def parseMarkdownFuel : Nat → Option Char → List Char → List MdElem
  | 0, _, _ => []
  | _ + 1, _, [] => []
  | fuel + 1, prev, a :: rest =>
    let r := mdStep prev a rest
    r.1 :: parseMarkdownFuel fuel (((a :: rest).drop (r.2 - 1)).head?)
      ((a :: rest).drop r.2)

/-- Model of `parseMarkdown` (src/unnamed/part_001, lines 13-108). -/
def parseMarkdown (l : List Char) : List MdElem :=
  parseMarkdownFuel l.length none l

/-- Concatenation of the content strings of a run sequence, in order. -/
def concatContents (es : List MdElem) : List Char :=
  (es.map MdElem.content).flatten

/-- Characters that can belong to a markup marker: hashes and the
whitespace separator of a heading, asterisks of emphasis markers, and
backticks of code markers. -/
def isMarkerChar (c : Char) : Bool :=
  c = '#' ∨ c = '*' ∨ c = btick ∨ jsWs c

/-- Modelled from the spec's words (claim C6 / section 4.4), for
comparison with the source's heading recognition: a heading requires 1-6
hash characters followed by at least one space-class character other
than a line break, and its content is the text from after that
whitespace up to the next line break or end of input (a heading needs
non-empty content).  Returns the level and content when the description
matches. -/
def headingClaim (l : List Char) : Option (Nat × List Char) :=
  let h := hashCount l
  if 1 ≤ h ∧ h ≤ 6 then
    let aft := l.drop h
    let sep := aft.takeWhile fun c => jsWs c ∧ c ≠ '\n'
    if 0 < sep.length then
      let c := (aft.drop sep.length).takeWhile (· ≠ '\n')
      if 0 < c.length then some (h, c) else none
    else none
  else none

/-- Amended heading grammar (claim C6 as forced by the code): 1-6 hash
characters at a line start, followed by a non-empty whitespace run
(which may contain line feeds, tabs and other space-class characters —
not only spaces), then a non-empty run of non-line-feed characters
ending at a line feed or at the end of input; the whitespace separator
is the longest one that leaves such a content run (the greedy quantifier
backtracks), which the final clause expresses as maximality among all
decompositions of the post-hash text. -/
def HeadingDecomp (l : List Char) (h : Nat) (c : List Char) : Prop :=
  1 ≤ h ∧ h ≤ 6 ∧ c ≠ [] ∧ (∀ x ∈ c, x ≠ '\n') ∧
  ∃ s r, l = List.replicate h '#' ++ s ++ c ++ r ∧
    s ≠ [] ∧ (∀ x ∈ s, jsWs x = true) ∧
    (r = [] ∨ r.head? = some '\n') ∧
    ∀ s2 c2 r2, s ++ c ++ r = s2 ++ c2 ++ r2 → s2 ≠ [] →
      (∀ x ∈ s2, jsWs x = true) → c2 ≠ [] → (∀ x ∈ c2, x ≠ '\n') →
      s2.length ≤ s.length

/-- Minimum number of characters one scanner step consumes when it
produces a run of the given kind: markers plus at least one content
character (a heading consumes at least one hash, one separator character
and one content character). -/
def minConsumed : MdElem → Nat
  | .text _ => 1
  | .bold _ => 5
  | .italic _ => 3
  | .code _ => 3
  | .header _ _ => 3

/-- A word segment placed on the current line by `addToLine`
(src/unnamed/part_001, lines 306-337): the stored text (possibly with
one leading separator space) and the formatting flags under which its
width was measured. -/
structure Seg where
  text : List Char
  isBold : Bool
  isItalic : Bool
  isCode : Bool
deriving DecidableEq

/-- The font-metric oracle: `pdf.getTextWidth` under a formatting state
(`helvetica` normal/bold/italic/bolditalic, or `courier` for code).  The
renderer is verified for an arbitrary measure, since the claims hold for
every metric. -/
def Measure : Type :=
  List Char → Bool → Bool → Bool → ℚ

/-- State of the paginated line builder inside `addFormattedText`:
the lines flushed so far (`flushLine` appends `currentLine`), the
current line, and the tracked `currentLineWidth`.  The vertical cursor
and page breaks are omitted: they affect where a line is drawn, never
which words it contains or its measured width. -/
structure WrapState where
  flushed : List (List Seg)
  current : List Seg
  width : ℚ
deriving DecidableEq

/-- Model of `flushLine` (src/unnamed/part_001, lines 263-304): an empty
current line is a no-op, otherwise the line is emitted and the current
line and width are reset. -/
def flushLine (st : WrapState) : WrapState :=
  if st.current = [] then st
  else ⟨st.flushed ++ [st.current], [], 0⟩

/-- Sum of the measured widths of a line's segments, each under its own
formatting flags — the quantity `currentLineWidth` tracks. -/
def lineW (mu : Measure) (line : List Seg) : ℚ :=
  (line.map fun sg => mu sg.text sg.isBold sg.isItalic sg.isCode).sum

/-- The `wordWithSpace` computation of `addToLine`: a word gets a
leading space unless it is both the first word of its call (`index 0`)
and lands on an empty current line. -/
def spaced (st : WrapState) (idx : Nat) (w : List Char) : List Char :=
  if 0 < st.current.length ∨ 0 < idx then ' ' :: w else w

/-- Model of the `words.forEach` loop of `addToLine`: if the measured
word (with its separator space) would overflow the usable width and the
line is non-empty, the line is flushed and the word (without the space)
starts the new line with its own measured width; otherwise the word is
appended and the width updated. -/
def addWords (mu : Measure) (maxw indent : ℚ) (b i cd : Bool) :
    WrapState → Nat → List (List Char) → WrapState
  | st, _, [] => st
  | st, idx, w :: ws =>
    if st.width + mu (spaced st idx w) b i cd > maxw - indent ∧
        st.current ≠ [] then
      addWords mu maxw indent b i cd
        ⟨st.flushed ++ [st.current], [⟨w, b, i, cd⟩], mu w b i cd⟩
        (idx + 1) ws
    else
      addWords mu maxw indent b i cd
        ⟨st.flushed, st.current ++ [⟨spaced st idx w, b, i, cd⟩],
          st.width + mu (spaced st idx w) b i cd⟩
        (idx + 1) ws

/-- Model of `text.split(/\s+/).filter(word => word.length > 0)`: the
maximal whitespace-free words of the text, in order. -/
def wordsAux (cur : List Char) : List Char → List (List Char)
  | [] => if cur = [] then [] else [cur.reverse]
  | a :: rest =>
    if jsWs a then
      if cur = [] then wordsAux [] rest
      else cur.reverse :: wordsAux [] rest
    else
      wordsAux (a :: cur) rest

/-- The word list of a text fragment. -/
def wordsOf (l : List Char) : List (List Char) :=
  wordsAux [] l

/-- Model of `addToLine(text, isBold, isItalic, isCode)`. -/
def addToLine (mu : Measure) (maxw indent : ℚ) (st : WrapState)
    (text : List Char) (b i cd : Bool) : WrapState :=
  addWords mu maxw indent b i cd st 0 (wordsOf text)

/-- Model of the per-element dispatch of `addFormattedText`
(src/unnamed/part_001, lines 340-362): bold, italic and code content is
added under the matching flags, a heading forces a line flush before and
after its bold content, and plain text is added unformatted. -/
def addElem (mu : Measure) (maxw indent : ℚ) (st : WrapState) :
    MdElem → WrapState
  | .bold c => addToLine mu maxw indent st c true false false
  | .italic c => addToLine mu maxw indent st c false true false
  | .code c => addToLine mu maxw indent st c false false true
  | .header _ c =>
    flushLine (addToLine mu maxw indent (flushLine st) c true false false)
  | .text c => addToLine mu maxw indent st c false false false

/-- Model of `addFormattedText` (src/unnamed/part_001, lines 255-367):
process every run, then flush the remaining content. -/
def addFormattedText (mu : Measure) (maxw indent : ℚ)
    (els : List MdElem) : WrapState :=
  flushLine (els.foldl (addElem mu maxw indent) ⟨[], [], 0⟩)

/-- The word carried by a segment: its text with the single leading
separator space (added by `addToLine` for non-initial words) removed. -/
def segWord (sg : Seg) : List Char :=
  if sg.text.head? = some ' ' then sg.text.tail else sg.text

/-- The sequence of words currently held by the builder, flushed lines
first, in order. -/
def wordSeq (st : WrapState) : List (List Char) :=
  (st.flushed.flatten ++ st.current).map segWord

/-- Width-tracking invariant of the line builder: the tracked width is
the measured width of the current line, every flushed line with more
than one word fits the usable width, and so does the current line
whenever it has more than one word. -/
def WrapInv (mu : Measure) (maxw indent : ℚ) (st : WrapState) : Prop :=
  st.width = lineW mu st.current ∧
  (∀ L ∈ st.flushed, 2 ≤ L.length → lineW mu L ≤ maxw - indent) ∧
  (2 ≤ st.current.length → st.width ≤ maxw - indent)

/-- The character-count metric, a concrete measure used to exercise the
renderer. -/
def lenMeasure : Measure :=
  fun w _ _ _ => (w.length : ℚ)

/-- A strictly positive concrete measure. -/
def posMeasure : Measure :=
  fun w _ _ _ => (w.length : ℚ) + 1

end LexicalSearch

namespace LexicalSearch

theorem splitSepFuel_ne_nil (sep : List Char) (fuel : Nat) (l : List Char) :
    splitSepFuel sep fuel l ≠ [] := by
  match fuel, l with
  | _, [] => simp [splitSepFuel]
  | 0, _ :: _ => simp [splitSepFuel]
  | fuel + 1, a :: rest =>
    unfold splitSepFuel
    split
    · simp
    · cases h : splitSepFuel sep fuel rest <;> simp

theorem splitSepFuel_singleton_length (c : Char) :
    ∀ fuel l, List.length l ≤ fuel →
      (splitSepFuel [c] fuel l).length = l.count c + 1 := by
  intro fuel
  induction fuel with
  | zero =>
    intro l hl
    have : l = [] := List.eq_nil_of_length_eq_zero (Nat.le_zero.mp hl)
    subst this
    simp [splitSepFuel]
  | succ n ih =>
    intro l hl
    match l with
    | [] => simp [splitSepFuel]
    | a :: rest =>
      have hrest : rest.length ≤ n := by
        simpa [Nat.succ_le_succ_iff] using hl
      by_cases hac : c = a
      · subst hac
        have hcond : [c].isPrefixOf (c :: rest) ∧ ([c] : List Char) ≠ [] :=
          ⟨by simp [List.isPrefixOf], by simp⟩
        unfold splitSepFuel
        rw [if_pos hcond]
        simp only [List.length_singleton, List.length_nil, Nat.zero_add,
          Nat.sub_self, List.drop_zero, List.length_cons,
          List.count_cons_self]
        rw [ih rest hrest]
      · have hcond : ¬([c].isPrefixOf (a :: rest) ∧ ([c] : List Char) ≠ []) := by
          intro hcon
          have hpre := hcon.1
          simp [List.isPrefixOf] at hpre
          exact hac hpre
        unfold splitSepFuel
        rw [if_neg hcond]
        have hne := splitSepFuel_ne_nil [c] n rest
        cases hsp : splitSepFuel [c] n rest with
        | nil => exact absurd hsp hne
        | cons h t =>
          have hih := ih rest hrest
          rw [hsp] at hih
          simp only [List.length_cons] at hih ⊢
          rw [List.count_cons_of_ne hac]
          omega

theorem splitSep_pipe_length (p : List Char) :
    (splitSep ['|'] p).length = p.count '|' + 1 :=
  splitSepFuel_singleton_length '|' p.length p le_rfl

/-- C2: on a paragraph with at least two pipe characters, the
restructurer returns exactly the trimmed first section followed, in
original order, by those trimmed subsequent sections whose lower-cased
form contains the normalized term, joined by single spaces; sections
failing the containment test are dropped. -/
theorem c2_restructure_triggered (p t : List Char) (h : 2 ≤ p.count '|') :
    processFoundParagraph p t = restructureSpec p t := by
  have hmem : '|' ∈ p := by
    have : 0 < p.count '|' := by omega
    exact List.count_pos_iff.mp this
  have hlen : 3 ≤ (splitSep ['|'] p).length := by
    rw [splitSep_pipe_length]; omega
  unfold processFoundParagraph restructureSpec
  rw [if_pos ⟨hmem, hlen⟩]

/-- Witness for C2, at the spec's own scenario input. -/
theorem c2_restructure_triggered_witness :
    2 ≤ ("Intro | has searchterm here | no match | also searchterm".toList.count '|') ∧
      processFoundParagraph
          "Intro | has searchterm here | no match | also searchterm".toList
          "searchterm".toList =
        restructureSpec
          "Intro | has searchterm here | no match | also searchterm".toList
          "searchterm".toList ∧
      processFoundParagraph
          "Intro | has searchterm here | no match | also searchterm".toList
          "searchterm".toList =
        "Intro has searchterm here also searchterm".toList :=
  ⟨by decide,
   c2_restructure_triggered _ _ (by decide),
   by decide⟩

/-- C3: on a paragraph with fewer than two pipe characters the
restructurer is the identity: the paragraph is returned completely
unchanged, with no trimming or normalization applied. -/
theorem c3_restructure_identity (p t : List Char) (h : p.count '|' < 2) :
    processFoundParagraph p t = p := by
  unfold processFoundParagraph
  rw [if_neg]
  intro hcond
  have := hcond.2
  rw [splitSep_pipe_length] at this
  omega

/-- Witness for C3. -/
theorem c3_restructure_identity_witness :
    ("one | pipe only".toList.count '|') < 2 ∧
      processFoundParagraph "one | pipe only".toList "pipe".toList =
        "one | pipe only".toList :=
  ⟨by decide, c3_restructure_identity _ _ (by decide)⟩

theorem countOccFuel_pos_iff (n : Char) (ns : List Char) :
    ∀ fuel hay, hay.length ≤ fuel →
      (0 < countOccFuel (n :: ns) fuel hay ↔
        containsSub hay (n :: ns) = true) := by
  intro fuel
  induction fuel with
  | zero =>
    intro hay hl
    have hnil : hay = [] := List.eq_nil_of_length_eq_zero (Nat.le_zero.mp hl)
    subst hnil
    simp [countOccFuel, containsSub]
  | succ k ih =>
    intro hay hl
    match hay with
    | [] => simp [countOccFuel, containsSub]
    | a :: rest =>
      have hrest : rest.length ≤ k := by
        simpa [Nat.succ_le_succ_iff] using hl
      cases hpre : (n :: ns).isPrefixOf (a :: rest) with
      | true =>
        simp [countOccFuel, containsSub, hpre]
      | false =>
        simp only [countOccFuel, containsSub, hpre, Bool.false_eq_true,
          if_false, Bool.false_or]
        exact ih rest hrest

theorem countOcc_pos_iff (needle hay : List Char) (h : needle ≠ []) :
    0 < countOcc needle hay ↔ containsSub hay needle = true := by
  match needle with
  | [] => exact absurd rfl h
  | n :: ns =>
    exact countOccFuel_pos_iff n ns hay.length hay le_rfl

theorem searchParagraphsAux_found (fileName : String) (pt term : List Char) :
    ∀ i paras, (searchParagraphsAux fileName pt term i paras).1 =
      (paras.filter fun p => containsSub (lowerL p) pt).map
        fun p => processFoundParagraph p term := by
  intro i paras
  induction paras generalizing i with
  | nil => simp [searchParagraphsAux]
  | cons p ps ih =>
    cases hc : containsSub (lowerL p) pt with
    | true => simp [searchParagraphsAux, hc, List.filter_cons, ih]
    | false => simp [searchParagraphsAux, hc, List.filter_cons, ih]

/-- C4: with a non-empty normalized term, a paragraph contributes an
entry to `foundParagraphs` exactly when the non-overlapping
left-to-right case-insensitive literal-substring count on its original
(pre-restructuring) text is positive — the found list is precisely the
positively-counted paragraphs, in order, after restructuring — and a
paragraph with zero matches has occurrence count 0. -/
theorem c4_found_iff_positive_count (fileName : String) (term : List Char)
    (paras : List (List Char)) (p : List Char)
    (h : lowerL (trimL term) ≠ []) :
    (searchParagraphs fileName term paras).1 =
      (paras.filter fun q =>
        0 < countOcc (lowerL (trimL term)) (lowerL q)).map
        (fun q => processFoundParagraph q term) ∧
    (containsSub (lowerL p) (lowerL (trimL term)) = false →
      countOcc (lowerL (trimL term)) (lowerL p) = 0) := by
  constructor
  · rw [searchParagraphs, searchParagraphsAux_found]
    congr 1
    apply List.filter_congr
    intro q _
    cases hcb : containsSub (lowerL q) (lowerL (trimL term)) with
    | true =>
      have hpos := (countOcc_pos_iff _ _ h).mpr hcb
      exact (decide_eq_true hpos).symm
    | false =>
      have hneg : ¬ 0 < countOcc (lowerL (trimL term)) (lowerL q) := by
        intro hp
        rw [countOcc_pos_iff _ _ h, hcb] at hp
        exact Bool.noConfusion hp
      exact (decide_eq_false hneg).symm
  · intro hzero
    by_contra hne
    have hpos := Nat.pos_of_ne_zero hne
    rw [countOcc_pos_iff _ _ h, hzero] at hpos
    exact Bool.noConfusion hpos

/-- Witness for C4. -/
theorem c4_found_iff_positive_count_witness :
    lowerL (trimL "X ".toList) ≠ [] ∧
      ((searchParagraphs "f" "X ".toList
          ["ax x b".toList, "none".toList]).1 =
        ((["ax x b".toList, "none".toList].filter fun q =>
          0 < countOcc (lowerL (trimL "X ".toList)) (lowerL q)).map
          (fun q => processFoundParagraph q "X ".toList)) ∧
      (containsSub (lowerL "none".toList) (lowerL (trimL "X ".toList)) = false →
        countOcc (lowerL (trimL "X ".toList)) (lowerL "none".toList) = 0)) :=
  ⟨by decide,
   c4_found_iff_positive_count "f" "X ".toList
     ["ax x b".toList, "none".toList] "none".toList (by decide)⟩

/-- C8 counterexample: requesting ids `["missing", "doc1"]` where only
`doc1` exists produces the full result for `doc1` (processing is not
aborted) but records no diagnostic entry whatsoever for `missing` —
every diagnostic entry in the output refers to `doc1.txt`, contradicting
the claim that a diagnostic entry is recorded for the unavailable id. -/
theorem c8_counterexample_no_diagnostic :
    handleSearch demoFiles "x".toList ["missing", "doc1"] =
      some ([⟨"doc1.txt", ["alpha x".toList], 2, 1⟩],
        [DebugEntry.fileInfo "doc1.txt" 2,
         DebugEntry.paraInfo "doc1.txt" 1 "alpha x".toList
           "alpha x".toList]) ∧
    ∀ e ∈ (searchCore demoFiles "x".toList ["missing", "doc1"]).2,
      DebugEntry.fname e = "doc1.txt" := by
  decide

/-- C8 amended: a requested identifier with no corresponding document is
skipped silently — no result and no diagnostic entry is produced for
it — and its absence does not abort the batch: the output equals that of
the present identifiers alone. -/
theorem c8_amended_missing_id_skipped_silently (files : List FileData)
    (term : List Char) (ids : List String) :
    searchCore files term ids =
      searchCore files term
        (ids.filter fun i => (files.find? fun f => f.fid == i).isSome) := by
  induction ids with
  | nil => rfl
  | cons fid ids ih =>
    rw [List.filter_cons]
    cases hf : files.find? (fun f => f.fid == fid) with
    | none =>
      simp only [searchCore, hf, Option.isSome_none, Bool.false_eq_true,
        if_false]
      exact ih
    | some file =>
      simp only [searchCore, hf, Option.isSome_some, if_true]
      rw [ih]

theorem takeWhile_append_of_all {p : Char → Bool} (s t : List Char)
    (h : ∀ x ∈ s, p x = true) :
    (s ++ t).takeWhile p = s ++ t.takeWhile p := by
  induction s with
  | nil => simp
  | cons a s ih =>
    have ha : p a = true := h a (by simp)
    simp only [List.cons_append, List.takeWhile_cons, ha, if_true]
    rw [ih fun x hx => h x (by simp [hx])]

theorem take_takeWhile_of_le {p : Char → Bool} (l : List Char) (k : Nat)
    (hk : k ≤ (l.takeWhile p).length) :
    l.take k = (l.takeWhile p).take k := by
  conv_lhs => rw [← List.takeWhile_append_dropWhile p l]
  rw [List.take_append_eq_append_take]
  have hz : k - (l.takeWhile p).length = 0 := by omega
  rw [hz]
  simp

theorem all_of_mem_take_takeWhile {p : Char → Bool} (l : List Char)
    (k : Nat) (hk : k ≤ (l.takeWhile p).length) :
    ∀ x ∈ l.take k, p x = true := by
  intro x hx
  rw [take_takeWhile_of_le l k hk] at hx
  exact List.mem_takeWhile_imp (List.mem_of_mem_take hx)

theorem takeWhile_eq_of_boundary {p : Char → Bool} (c r : List Char)
    (hc : ∀ x ∈ c, p x = true)
    (hr : r = [] ∨ ∃ x t, r = x :: t ∧ p x = false) :
    (c ++ r).takeWhile p = c := by
  rw [takeWhile_append_of_all c r hc]
  rcases hr with hnil | ⟨x, t, hxt, hpx⟩
  · simp [hnil]
  · simp [hxt, List.takeWhile_cons, hpx]

theorem dropWhile_head_false {p : Char → Bool} :
    ∀ (l : List Char) (x : Char) (t : List Char),
      l.dropWhile p = x :: t → p x = false := by
  intro l
  induction l with
  | nil => intro x t h; cases h
  | cons a rest ih =>
    intro x t h
    rw [List.dropWhile_cons] at h
    by_cases hp : p a = true
    · rw [if_pos hp] at h
      exact ih x t h
    · rw [if_neg hp] at h
      cases h
      exact Bool.eq_false_iff.mpr fun hh => hp hh

theorem takeWhile_hash_eq (l : List Char) :
    l.takeWhile (· = '#') = List.replicate (hashCount l) '#' := by
  apply List.eq_replicate_iff.mpr
  refine ⟨rfl, ?_⟩
  intro b hb
  have := List.mem_takeWhile_imp hb
  exact of_decide_eq_true this

theorem hash_append_drop (l : List Char) :
    l = List.replicate (hashCount l) '#' ++ l.drop (hashCount l) := by
  conv_lhs => rw [← List.take_append_drop (hashCount l) l]
  congr 1
  rw [← takeWhile_hash_eq]
  exact ((List.prefix_iff_eq_take.mp (List.takeWhile_prefix _))).symm

theorem hashCount_le_length (l : List Char) : hashCount l ≤ l.length :=
  (List.takeWhile_prefix _).length_le

theorem indexOfSub_spec (needle : List Char) :
    ∀ l i, indexOfSub needle l = some i →
      needle.isPrefixOf (l.drop i) = true ∧
        i + needle.length ≤ l.length := by
  intro l
  induction l with
  | nil =>
    intro i h
    unfold indexOfSub at h
    by_cases he : needle.isEmpty
    · rw [if_pos he] at h
      injection h with h
      subst h
      have hne : needle = [] := by simpa [List.isEmpty_iff] using he
      simp [hne, List.isPrefixOf]
    · rw [if_neg he] at h
      cases h
  | cons a rest ih =>
    intro i h
    unfold indexOfSub at h
    by_cases hp : needle.isPrefixOf (a :: rest) = true
    · rw [if_pos hp] at h
      injection h with h
      subst h
      refine ⟨by simpa using hp, ?_⟩
      have := (List.isPrefixOf_iff_prefix.mp hp).length_le
      simpa using this
    · rw [if_neg hp] at h
      cases hoi : indexOfSub needle rest with
      | none => rw [hoi] at h; cases h
      | some j =>
        rw [hoi] at h
        simp only [Option.map_some'] at h
        injection h with h
        subst h
        obtain ⟨h1, h2⟩ := ih j hoi
        constructor
        · simpa using h1
        · simp only [List.length_cons]
          omega

theorem okAt_iff (aft : List Char) (k : Nat) :
    okAt aft k = true ↔
      ∃ ch, (aft.drop k).head? = some ch ∧ ch ≠ '\n' := by
  unfold okAt
  cases hh : (aft.drop k).head? with
  | some c =>
    simp only [decide_eq_true_eq]
    constructor
    · intro hne
      exact ⟨c, rfl, hne⟩
    · rintro ⟨ch, hch, hne⟩
      injection hch with hch
      subst hch
      exact hne
  | none => simp

theorem headKBack_some (aft : List Char) :
    ∀ m k, headKBack aft m = some k →
      1 ≤ k ∧ k ≤ m ∧
        ∃ ch, (aft.drop k).head? = some ch ∧ ch ≠ '\n' := by
  intro m
  induction m with
  | zero => intro k h; cases h
  | succ m ih =>
    intro k h
    unfold headKBack at h
    by_cases hok : okAt aft (m + 1) = true
    · rw [if_pos hok] at h
      injection h with h
      subst h
      exact ⟨by omega, le_rfl, (okAt_iff aft (m + 1)).mp hok⟩
    · rw [if_neg hok] at h
      obtain ⟨h1, h2, hch⟩ := ih k h
      exact ⟨h1, by omega, hch⟩

theorem headKBack_max (aft : List Char) :
    ∀ m k, headKBack aft m = some k →
      ∀ j, 1 ≤ j → j ≤ m →
        (∃ ch, (aft.drop j).head? = some ch ∧ ch ≠ '\n') → j ≤ k := by
  intro m
  induction m with
  | zero => intro k h; cases h
  | succ m ih =>
    intro k h j hj1 hj2 hvalid
    unfold headKBack at h
    by_cases hok : okAt aft (m + 1) = true
    · rw [if_pos hok] at h
      injection h with h
      omega
    · rw [if_neg hok] at h
      rcases Nat.lt_or_ge j (m + 1) with hlt | hge
      · exact ih k h j hj1 (by omega) hvalid
      · have hjeq : j = m + 1 := by omega
        rw [hjeq] at hvalid
        exact absurd ((okAt_iff aft (m + 1)).mpr hvalid) hok

theorem headKBack_none (aft : List Char) :
    ∀ m, headKBack aft m = none →
      ∀ j, 1 ≤ j → j ≤ m →
        ¬∃ ch, (aft.drop j).head? = some ch ∧ ch ≠ '\n' := by
  intro m
  induction m with
  | zero => intro _ j hj1 hj2; omega
  | succ m ih =>
    intro h j hj1 hj2 hvalid
    unfold headKBack at h
    by_cases hok : okAt aft (m + 1) = true
    · rw [if_pos hok] at h; cases h
    · rw [if_neg hok] at h
      rcases Nat.lt_or_ge j (m + 1) with hlt | hge
      · exact ih h j hj1 (by omega) hvalid
      · have hjeq : j = m + 1 := by omega
        rw [hjeq] at hvalid
        exact absurd ((okAt_iff aft (m + 1)).mpr hvalid) hok

theorem headMatch_some (l : List Char) (h : Nat) (c : List Char) (n : Nat)
    (hm : headMatch l = some (h, c, n)) :
    h = hashCount l ∧ 1 ≤ h ∧ h ≤ 6 ∧
      ∃ k, headKBack (l.drop h) ((l.drop h).takeWhile jsWs).length = some k ∧
        c = ((l.drop h).drop k).takeWhile (· ≠ '\n') ∧
        n = h + k + c.length := by
  unfold headMatch at hm
  by_cases hg : 1 ≤ hashCount l ∧ hashCount l ≤ 6
  · rw [if_pos hg] at hm
    cases hkb : headKBack (l.drop (hashCount l))
        ((l.drop (hashCount l)).takeWhile jsWs).length with
    | none => rw [hkb] at hm; cases hm
    | some k =>
      rw [hkb] at hm
      injection hm with hm
      rw [Prod.mk.injEq, Prod.mk.injEq] at hm
      obtain ⟨hh, hc, hn⟩ := hm
      subst hh
      subst hc
      subst hn
      exact ⟨rfl, hg.1, hg.2, k, hkb, rfl, rfl⟩
  · rw [if_neg hg] at hm
    cases hm

theorem headMatch_decomp (l : List Char) (h : Nat) (c : List Char) (n : Nat)
    (hm : headMatch l = some (h, c, n)) :
    ∃ s, 1 ≤ h ∧ h ≤ 6 ∧ h = hashCount l ∧
      s ≠ [] ∧ (∀ x ∈ s, jsWs x = true) ∧
      c ≠ [] ∧ (∀ x ∈ c, x ≠ '\n') ∧
      n = h + s.length + c.length ∧ n ≤ l.length ∧
      l.take n = List.replicate h '#' ++ s ++ c ∧
      (l.drop n = [] ∨ (l.drop n).head? = some '\n') ∧
      (∀ s2 c2 r2, l.drop h = s2 ++ c2 ++ r2 → s2 ≠ [] →
        (∀ x ∈ s2, jsWs x = true) → c2 ≠ [] → (∀ x ∈ c2, x ≠ '\n') →
        s2.length ≤ s.length) := by
  obtain ⟨hh, h1, h6, k, hkb, hc, hn⟩ := headMatch_some l h c n hm
  obtain ⟨hk1, hkw, ch, hch, hchn⟩ :=
    headKBack_some (l.drop h) ((l.drop h).takeWhile jsWs).length k hkb
  have hwle : ((l.drop h).takeWhile jsWs).length ≤ (l.drop h).length :=
    (List.takeWhile_prefix jsWs).length_le
  have hkle : k ≤ (l.drop h).length := le_trans hkw hwle
  have hhl : h ≤ l.length := by
    rw [hh]
    exact hashCount_le_length l
  have haftlen : (l.drop h).length = l.length - h := List.length_drop h l
  have hslen : ((l.drop h).take k).length = k := by
    rw [List.length_take]
    omega
  have hcpre : c <+: (l.drop h).drop k := by
    rw [hc]
    exact List.takeWhile_prefix _
  have hctake : ((l.drop h).drop k).take c.length = c :=
    (List.prefix_iff_eq_take.mp hcpre).symm
  have hclen : c.length ≤ (l.drop h).length - k := by
    have hle2 := hcpre.length_le
    rw [List.length_drop] at hle2
    exact hle2
  have hsplit : l = List.replicate h '#' ++ l.drop h := by
    rw [hh]
    exact hash_append_drop l
  refine ⟨(l.drop h).take k, h1, h6, hh, ?_, ?_, ?_, ?_, ?_, ?_, ?_, ?_, ?_⟩
  -- s ≠ []
  · intro hnil
    rw [hnil] at hslen
    simp at hslen
    omega
  -- s is whitespace
  · exact all_of_mem_take_takeWhile (l.drop h) k hkw
  -- c ≠ []
  · obtain ⟨t, ht⟩ : ∃ t, (l.drop h).drop k = ch :: t := by
      cases hd : (l.drop h).drop k with
      | nil => rw [hd] at hch; cases hch
      | cons y ys =>
        rw [hd] at hch
        injection hch with hch
        subst hch
        exact ⟨ys, rfl⟩
    rw [hc, ht, List.takeWhile_cons, if_pos (by simpa using hchn)]
    simp
  -- c has no line feed
  · intro x hx
    rw [hc] at hx
    have := List.mem_takeWhile_imp hx
    simpa using this
  -- n = h + s.length + c.length
  · rw [hslen]
    exact hn
  -- n ≤ l.length
  · omega
  -- take n l = replicate ++ s ++ c
  · conv_lhs => rw [hsplit]
    rw [hn, List.take_append_eq_append_take]
    have hrepl : (List.replicate h '#').length = h := List.length_replicate h '#'
    rw [List.take_of_length_le (by omega : (List.replicate h '#').length ≤ h + k + c.length)]
    rw [hrepl]
    have hsub : h + k + c.length - h = k + c.length := by omega
    rw [hsub, List.take_add, hctake, List.append_assoc]
  -- the remainder is empty or starts with a line feed
  · have hrepl : (List.replicate h '#').length = h := List.length_replicate h '#'
    have hdropn : l.drop n = ((l.drop h).drop k).drop c.length := by
      rw [List.drop_drop, List.drop_drop, hn]
      congr 1
      omega
    rw [hdropn]
    have hsplit2 : (l.drop h).drop k =
        c ++ ((l.drop h).drop k).dropWhile (fun x => decide (x ≠ '\n')) := by
      conv_lhs => rw [← List.takeWhile_append_dropWhile
        (fun x => decide (x ≠ '\n')) ((l.drop h).drop k)]
      rw [← hc]
    rw [hsplit2, List.drop_append_eq_append_drop, List.drop_length]
    simp only [Nat.sub_self, List.drop_zero, List.nil_append]
    cases hdw : ((l.drop h).drop k).dropWhile (fun x => decide (x ≠ '\n')) with
    | nil => exact Or.inl rfl
    | cons y ys =>
      right
      have hfalse := dropWhile_head_false ((l.drop h).drop k) y ys hdw
      have hy : y = '\n' := by simpa using hfalse
      rw [hy]
      rfl
  -- maximality of the separator
  · intro s2 c2 r2 hdec hs2 hws2 hc2 hcn2
    have haft2 : l.drop h = s2 ++ (c2 ++ r2) := by
      rw [hdec, List.append_assoc]
    have hs2w : s2.length ≤ ((l.drop h).takeWhile jsWs).length := by
      rw [haft2, takeWhile_append_of_all s2 (c2 ++ r2) hws2,
        List.length_append]
      omega
    obtain ⟨x, t2, hxt⟩ : ∃ x t2, c2 = x :: t2 := by
      cases c2 with
      | nil => exact absurd rfl hc2
      | cons x t2 => exact ⟨x, t2, rfl⟩
    have hvalid : ∃ ch2, ((l.drop h).drop s2.length).head? = some ch2 ∧
        ch2 ≠ '\n' := by
      have hdrop2 : (l.drop h).drop s2.length = c2 ++ r2 := by
        rw [haft2, List.drop_left]
      refine ⟨x, ?_, hcn2 x (by rw [hxt]; simp)⟩
      rw [hdrop2, hxt]
      rfl
    have hs21 : 1 ≤ s2.length := by
      cases s2 with
      | nil => exact absurd rfl hs2
      | cons _ _ => simp
    have hle := headKBack_max (l.drop h) ((l.drop h).takeWhile jsWs).length
      k hkb s2.length hs21 hs2w hvalid
    rw [hslen]
    exact hle

theorem hashCount_prefix_append (h : Nat) (x : Char) (t : List Char)
    (hx : x ≠ '#') : hashCount (List.replicate h '#' ++ x :: t) = h := by
  unfold hashCount
  rw [takeWhile_append_of_all (List.replicate h '#') (x :: t) ?_]
  · rw [List.takeWhile_cons, if_neg (by simpa using hx)]
    simp
  · intro y hy
    have := List.eq_of_mem_replicate hy
    simpa using this

theorem headingDecomp_of_headMatch (l : List Char) (h : Nat) (c : List Char)
    (n : Nat) (hm : headMatch l = some (h, c, n)) : HeadingDecomp l h c := by
  obtain ⟨s, h1, h6, hh, hs, hws, hc, hcn, hn, hnle, htake, hdrop, hmax⟩ :=
    headMatch_decomp l h c n hm
  have hlform : l = List.replicate h '#' ++ (s ++ (c ++ l.drop n)) := by
    conv_lhs => rw [← List.take_append_drop n l]
    rw [htake]
    simp [List.append_assoc]
  have hdl := List.drop_left (List.replicate h '#') (s ++ (c ++ l.drop n))
  rw [List.length_replicate] at hdl
  have haft : l.drop h = s ++ c ++ l.drop n := by
    conv_lhs => rw [hlform]
    rw [hdl, List.append_assoc]
  refine ⟨h1, h6, hc, hcn, s, l.drop n, ?_, hs, hws, hdrop, ?_⟩
  · conv_lhs => rw [hlform]
    simp [List.append_assoc]
  · intro s2 c2 r2 hdec hs2 hws2 hc2 hcn2
    exact hmax s2 c2 r2 (by rw [haft, hdec]) hs2 hws2 hc2 hcn2

theorem headMatch_of_headingDecomp (l : List Char) (h : Nat) (c : List Char)
    (hd : HeadingDecomp l h c) : ∃ n, headMatch l = some (h, c, n) := by
  obtain ⟨h1, h6, hc, hcn, s, r, hl, hs, hws, hr, hmax⟩ := hd
  obtain ⟨sx, s1, hsx⟩ : ∃ sx s1, s = sx :: s1 := by
    cases s with
    | nil => exact absurd rfl hs
    | cons sx s1 => exact ⟨sx, s1, rfl⟩
  obtain ⟨cx, c1, hcx⟩ : ∃ cx c1, c = cx :: c1 := by
    cases c with
    | nil => exact absurd rfl hc
    | cons cx c1 => exact ⟨cx, c1, rfl⟩
  have hsxw : jsWs sx = true := hws sx (by rw [hsx]; simp)
  have hsxh : sx ≠ '#' := by
    intro heq
    rw [heq] at hsxw
    exact absurd hsxw (by decide)
  have hcnt : hashCount l = h := by
    rw [hl, hsx]
    have hassoc : List.replicate h '#' ++ (sx :: s1) ++ c ++ r =
        List.replicate h '#' ++ (sx :: (s1 ++ c ++ r)) := by
      simp [List.append_assoc]
    rw [hassoc]
    exact hashCount_prefix_append h sx (s1 ++ c ++ r) hsxh
  have hl2 : l = List.replicate h '#' ++ (s ++ (c ++ r)) := by
    rw [hl]
    simp [List.append_assoc]
  have hdl := List.drop_left (List.replicate h '#') (s ++ (c ++ r))
  rw [List.length_replicate] at hdl
  have haft : l.drop h = s ++ c ++ r := by
    rw [hl2, hdl]
    exact (List.append_assoc s c r).symm
  have hdrop2 : (l.drop h).drop s.length = c ++ r := by
    rw [haft, List.append_assoc, List.drop_left]
  have hvalid : ∃ ch2, ((l.drop h).drop s.length).head? = some ch2 ∧
      ch2 ≠ '\n' := by
    refine ⟨cx, ?_, hcn cx (by rw [hcx]; simp)⟩
    rw [hdrop2, hcx]
    rfl
  have hsw : s.length ≤ ((l.drop h).takeWhile jsWs).length := by
    rw [haft, List.append_assoc, takeWhile_append_of_all s (c ++ r) hws,
      List.length_append]
    omega
  have hs1 : 1 ≤ s.length := by
    rw [hsx]
    simp
  cases hkb : headKBack (l.drop h) ((l.drop h).takeWhile jsWs).length with
  | none =>
    exact absurd hvalid
      (headKBack_none (l.drop h) _ hkb s.length hs1 hsw)
  | some k =>
    have hk_ge := headKBack_max (l.drop h) _ k hkb s.length hs1 hsw hvalid
    obtain ⟨hk1, hkw, ch, hch, hchn⟩ := headKBack_some (l.drop h) _ k hkb
    have hwle : ((l.drop h).takeWhile jsWs).length ≤ (l.drop h).length :=
      (List.takeWhile_prefix jsWs).length_le
    have hs0len : ((l.drop h).take k).length = k := by
      rw [List.length_take]
      omega
    have hdecomp0 : l.drop h = (l.drop h).take k ++
        ((l.drop h).drop k).takeWhile (fun x => decide (x ≠ '\n')) ++
        ((l.drop h).drop k).dropWhile (fun x => decide (x ≠ '\n')) := by
      rw [List.append_assoc, List.takeWhile_append_dropWhile,
        List.take_append_drop]
    obtain ⟨t0, ht0⟩ : ∃ t0,
        ((l.drop h).drop k).takeWhile (fun x => decide (x ≠ '\n')) =
          ch :: t0 := by
      cases hd0 : (l.drop h).drop k with
      | nil => rw [hd0] at hch; cases hch
      | cons y ys =>
        rw [hd0] at hch
        injection hch with hch
        subst hch
        rw [List.takeWhile_cons, if_pos (by simpa using hchn)]
        exact ⟨_, rfl⟩
    have hk_le : k ≤ s.length := by
      have happ := hmax ((l.drop h).take k)
        (((l.drop h).drop k).takeWhile (fun x => decide (x ≠ '\n')))
        (((l.drop h).drop k).dropWhile (fun x => decide (x ≠ '\n')))
        (haft.symm.trans hdecomp0)
        (by intro hnil; rw [hnil] at hs0len; simp at hs0len; omega)
        (all_of_mem_take_takeWhile (l.drop h) k hkw)
        (by rw [ht0]; simp)
        (by
          intro x hx
          have := List.mem_takeWhile_imp hx
          simpa using this)
      rw [hs0len] at happ
      exact happ
    have hkeq : k = s.length := le_antisymm hk_le hk_ge
    have hcont : ((l.drop h).drop k).takeWhile (fun x => decide (x ≠ '\n')) =
        c := by
      rw [hkeq, hdrop2]
      apply takeWhile_eq_of_boundary
      · intro x hx
        simpa using hcn x hx
      · rcases hr with h0 | h0
        · exact Or.inl h0
        · right
          obtain ⟨t1, ht1⟩ : ∃ t1, r = '\n' :: t1 := by
            cases r with
            | nil => cases h0
            | cons y ys =>
              injection h0 with h0
              subst h0
              exact ⟨ys, rfl⟩
          exact ⟨'\n', t1, ht1, by decide⟩
    refine ⟨h + k + c.length, ?_⟩
    unfold headMatch
    rw [hcnt, if_pos ⟨h1, h6⟩, hkb]
    exact congrArg some (by rw [hcont])

theorem mdStep_eq_heading (prev : Option Char) (a : Char) (rest : List Char)
    (r : MdElem × Nat) (hsh : stepHeading prev a rest = some r) :
    mdStep prev a rest = r := by
  unfold mdStep
  rw [hsh]

theorem mdStep_eq_bold (prev : Option Char) (a : Char) (rest : List Char)
    (r : MdElem × Nat) (hsh : stepHeading prev a rest = none)
    (hb : stepBold a rest = some r) : mdStep prev a rest = r := by
  unfold mdStep
  rw [hsh, hb]

theorem mdStep_eq_italic (prev : Option Char) (a : Char) (rest : List Char)
    (r : MdElem × Nat) (hsh : stepHeading prev a rest = none)
    (hb : stepBold a rest = none) (hi : stepItalic prev a rest = some r) :
    mdStep prev a rest = r := by
  unfold mdStep
  rw [hsh, hb, hi]

theorem mdStep_eq_code (prev : Option Char) (a : Char) (rest : List Char)
    (r : MdElem × Nat) (hsh : stepHeading prev a rest = none)
    (hb : stepBold a rest = none) (hi : stepItalic prev a rest = none)
    (hcd : stepCode a rest = some r) : mdStep prev a rest = r := by
  unfold mdStep
  rw [hsh, hb, hi, hcd]

theorem mdStep_eq_plain (prev : Option Char) (a : Char) (rest : List Char)
    (hsh : stepHeading prev a rest = none) (hb : stepBold a rest = none)
    (hi : stepItalic prev a rest = none) (hcd : stepCode a rest = none) :
    mdStep prev a rest = stepPlain a rest := by
  unfold mdStep
  rw [hsh, hb, hi, hcd]

theorem mdStep_inv (prev : Option Char) (a : Char) (rest : List Char) :
    (stepHeading prev a rest = some (mdStep prev a rest)) ∨
    (stepBold a rest = some (mdStep prev a rest)) ∨
    (stepItalic prev a rest = some (mdStep prev a rest)) ∨
    (stepCode a rest = some (mdStep prev a rest)) ∨
    (mdStep prev a rest = stepPlain a rest) := by
  cases hsh : stepHeading prev a rest with
  | some r => rw [mdStep_eq_heading prev a rest r hsh]; exact Or.inl rfl
  | none =>
    cases hb : stepBold a rest with
    | some r =>
      rw [mdStep_eq_bold prev a rest r hsh hb]
      exact Or.inr (Or.inl rfl)
    | none =>
      cases hi : stepItalic prev a rest with
      | some r =>
        rw [mdStep_eq_italic prev a rest r hsh hb hi]
        exact Or.inr (Or.inr (Or.inl rfl))
      | none =>
        cases hcd : stepCode a rest with
        | some r =>
          rw [mdStep_eq_code prev a rest r hsh hb hi hcd]
          exact Or.inr (Or.inr (Or.inr (Or.inl rfl)))
        | none =>
          exact Or.inr (Or.inr (Or.inr (Or.inr
            (mdStep_eq_plain prev a rest hsh hb hi hcd))))

theorem stepHeading_some_inv (prev : Option Char) (a : Char)
    (rest : List Char) (r : MdElem × Nat)
    (h : stepHeading prev a rest = some r) :
    a = '#' ∧ atLineStart prev = true ∧
      ∃ hh cc, r.1 = MdElem.header hh cc ∧
        headMatch (a :: rest) = some (hh, cc, r.2) := by
  unfold stepHeading at h
  by_cases hg : a = '#' ∧ atLineStart prev = true
  · rw [if_pos hg] at h
    cases hm : headMatch (a :: rest) with
    | none => rw [hm] at h; cases h
    | some t =>
      rw [hm] at h
      simp only [Option.map_some'] at h
      injection h with h
      subst h
      exact ⟨hg.1, hg.2, t.1, t.2.1, rfl, rfl⟩
  · rw [if_neg hg] at h
    cases h

theorem stepHeading_of_headMatch (prev : Option Char) (a : Char)
    (rest : List Char) (hh : Nat) (cc : List Char) (nn : Nat)
    (ha : a = '#') (hst : atLineStart prev = true)
    (hm : headMatch (a :: rest) = some (hh, cc, nn)) :
    stepHeading prev a rest = some (MdElem.header hh cc, nn) := by
  unfold stepHeading
  rw [if_pos ⟨ha, hst⟩, hm]
  rfl

theorem stepBold_some_inv (a : Char) (rest : List Char) (r : MdElem × Nat)
    (h : stepBold a rest = some r) :
    ∃ rest2 e, a = '*' ∧ rest = '*' :: rest2 ∧
      indexOfSub ['*', '*'] rest2 = some e ∧ 0 < e ∧
      r = (MdElem.bold (rest2.take e), 4 + e) := by
  unfold stepBold at h
  by_cases hg : a = '*' ∧ rest.head? = some '*'
  · rw [if_pos hg] at h
    obtain ⟨rest2, hrest2⟩ : ∃ rest2, rest = '*' :: rest2 := by
      cases rest with
      | nil => simp at hg
      | cons y ys =>
        have hy : y = '*' := by simpa using hg.2
        subst hy
        exact ⟨ys, rfl⟩
    rw [hrest2] at h
    simp only [List.drop_succ_cons, List.drop_zero] at h
    cases hio : indexOfSub ['*', '*'] rest2 with
    | none => rw [hio] at h; cases h
    | some e =>
      rw [hio, Option.some_bind] at h
      by_cases he : 0 < e
      · rw [if_pos he] at h
        injection h with h
        subst h
        exact ⟨rest2, e, hg.1, hrest2, hio, he, rfl⟩
      · rw [if_neg he] at h
        cases h
  · rw [if_neg hg] at h
    cases h

theorem stepItalic_some_inv (prev : Option Char) (a : Char)
    (rest : List Char) (r : MdElem × Nat)
    (h : stepItalic prev a rest = some r) :
    ∃ e, a = '*' ∧ indexOfSub ['*'] rest = some e ∧ 0 < e ∧
      r = (MdElem.italic (rest.take e), 2 + e) := by
  unfold stepItalic at h
  by_cases hg : a = '*' ∧ rest.head? ≠ some '*' ∧ prev ≠ some '*'
  · rw [if_pos hg] at h
    cases hio : indexOfSub ['*'] rest with
    | none => rw [hio] at h; cases h
    | some e =>
      rw [hio, Option.some_bind] at h
      by_cases he : 0 < e ∧ (rest.drop (e + 1)).head? ≠ some '*'
      · rw [if_pos he] at h
        injection h with h
        subst h
        exact ⟨e, hg.1, rfl, he.1, rfl⟩
      · rw [if_neg he] at h
        cases h
  · rw [if_neg hg] at h
    cases h

theorem stepCode_some_inv (a : Char) (rest : List Char) (r : MdElem × Nat)
    (h : stepCode a rest = some r) :
    ∃ e, a = btick ∧ indexOfSub [btick] rest = some e ∧ 0 < e ∧
      r = (MdElem.code (rest.take e), 2 + e) := by
  unfold stepCode at h
  by_cases hg : a = btick
  · rw [if_pos hg] at h
    cases hio : indexOfSub [btick] rest with
    | none => rw [hio] at h; cases h
    | some e =>
      rw [hio, Option.some_bind] at h
      by_cases he : 0 < e
      · rw [if_pos he] at h
        injection h with h
        subst h
        exact ⟨e, hg, rfl, he, rfl⟩
      · rw [if_neg he] at h
        cases h
  · rw [if_neg hg] at h
    cases h

theorem prefix_cons {l t : List Char} (a : Char) (h : l <+: t) :
    (a :: l) <+: (a :: t) := by
  obtain ⟨u, hu⟩ := h
  exact ⟨u, by rw [List.cons_append, hu]⟩

theorem plainSpan_prefix (p : Char) (l : List Char) :
    plainSpan p l <+: l := by
  induction l generalizing p with
  | nil => exact List.nil_prefix
  | cons c cs ih =>
    unfold plainSpan
    by_cases hm : c = '*' ∨ c = btick ∨ (c = '#' ∧ p = '\n')
    · rw [if_pos hm]
      exact List.nil_prefix
    · rw [if_neg hm]
      exact prefix_cons c (ih c)

theorem takeLen_of_pre {l t : List Char} (h : t <+: l) :
    l.take t.length = t :=
  (List.prefix_iff_eq_take.mp h).symm

theorem isMarkerChar_of_ws {x : Char} (h : jsWs x = true) :
    isMarkerChar x = true := by
  unfold isMarkerChar
  simp only [Bool.decide_or, Bool.or_eq_true, decide_eq_true_eq]
  tauto

theorem mdStep_take_decomp (prev : Option Char) (a : Char)
    (rest : List Char) :
    ∃ pre post,
      (a :: rest).take (mdStep prev a rest).2 =
        pre ++ (mdStep prev a rest).1.content ++ post ∧
      ((pre ++ post).all isMarkerChar) = true ∧
      minConsumed (mdStep prev a rest).1 ≤ (mdStep prev a rest).2 ∧
      (mdStep prev a rest).2 ≤ (a :: rest).length := by
  rcases mdStep_inv prev a rest with hsh | hb | hi | hcd | hp
  -- heading
  · obtain ⟨ha, hst, hh, cc, hr1, hm⟩ :=
      stepHeading_some_inv prev a rest _ hsh
    obtain ⟨s, h1, h6, hhc, hs, hws, hcne, hcn, hn, hnle, htake, hdrop, hmax⟩ :=
      headMatch_decomp (a :: rest) hh cc _ hm
    refine ⟨List.replicate hh '#' ++ s, [], ?_, ?_, ?_, hnle⟩
    · rw [htake, hr1]
      simp [MdElem.content, List.append_assoc]
    · rw [List.all_eq_true]
      intro x hx
      simp only [List.append_nil, List.mem_append] at hx
      rcases hx with hx | hx
      · have := List.eq_of_mem_replicate hx
        subst this
        decide
      · exact isMarkerChar_of_ws (hws x hx)
    · rw [hr1]
      simp only [minConsumed]
      have hslen : 1 ≤ s.length := by
        cases s with
        | nil => exact absurd rfl hs
        | cons _ _ => simp
      have hclen : 1 ≤ cc.length := by
        cases cc with
        | nil => exact absurd rfl hcne
        | cons _ _ => simp
      omega
  -- bold
  · obtain ⟨rest2, e, ha, hrest, hio, he, hr⟩ := stepBold_some_inv a rest _ hb
    obtain ⟨hpre, hlen⟩ := indexOfSub_spec ['*', '*'] rest2 e hio
    have hclose : (rest2.drop e).take 2 = ['*', '*'] := by
      have := takeLen_of_pre (List.isPrefixOf_iff_prefix.mp hpre)
      simpa using this
    refine ⟨['*', '*'], ['*', '*'], ?_, by decide, ?_, ?_⟩
    · rw [hr, ha, hrest]
      have h4 : 4 + e = (e + 1) + 1 + 1 + 1 := by omega
      rw [h4, List.take_succ_cons, List.take_succ_cons]
      have h2 : e + 1 + 1 = e + 2 := by omega
      rw [h2, List.take_add, hclose]
      simp [MdElem.content]
    · rw [hr]
      simp only [minConsumed]
      omega
    · rw [hr, hrest]
      simp only [List.length_cons]
      simp only [List.length_cons] at hlen
      omega
  -- italic
  · obtain ⟨e, ha, hio, he, hr⟩ := stepItalic_some_inv prev a rest _ hi
    obtain ⟨hpre, hlen⟩ := indexOfSub_spec ['*'] rest e hio
    have hclose : (rest.drop e).take 1 = ['*'] := by
      have := takeLen_of_pre (List.isPrefixOf_iff_prefix.mp hpre)
      simpa using this
    refine ⟨['*'], ['*'], ?_, by decide, ?_, ?_⟩
    · rw [hr, ha]
      have h2 : 2 + e = (e + 1) + 1 := by omega
      rw [h2, List.take_succ_cons]
      have h1 : e + 1 = e + 1 := rfl
      rw [List.take_add, hclose]
      simp [MdElem.content]
    · rw [hr]
      simp only [minConsumed]
      omega
    · rw [hr]
      simp only [List.length_cons]
      simp only [List.length_singleton] at hlen
      omega
  -- code
  · obtain ⟨e, ha, hio, he, hr⟩ := stepCode_some_inv a rest _ hcd
    obtain ⟨hpre, hlen⟩ := indexOfSub_spec [btick] rest e hio
    have hclose : (rest.drop e).take 1 = [btick] := by
      have := takeLen_of_pre (List.isPrefixOf_iff_prefix.mp hpre)
      simpa using this
    refine ⟨[btick], [btick], ?_, by decide, ?_, ?_⟩
    · rw [hr, ha]
      have h2 : 2 + e = (e + 1) + 1 := by omega
      rw [h2, List.take_succ_cons]
      rw [List.take_add, hclose]
      simp [MdElem.content]
    · rw [hr]
      simp only [minConsumed]
      omega
    · rw [hr]
      simp only [List.length_cons]
      simp only [List.length_singleton] at hlen
      omega
  -- plain text
  · have hsp : plainSpan a rest <+: rest := plainSpan_prefix a rest
    have hlen := hsp.length_le
    refine ⟨[], [], ?_, by decide, ?_, ?_⟩
    · rw [hp]
      unfold stepPlain
      simp only [MdElem.content, List.nil_append, List.append_nil,
        List.length_cons, List.take_succ_cons]
      rw [takeLen_of_pre hsp]
    · rw [hp]
      simp [stepPlain, minConsumed]
    · rw [hp]
      unfold stepPlain
      simp only [List.length_cons]
      omega

/-- C10: the scanner strictly advances on every iteration — each step
consumes at least one character (indeed at least the construct's markers
plus one content character: five characters for a strong run, three for
emphasis, code and heading runs, one for a plain run) and never more
than the remaining input, so the scan loop of `parseMarkdown` is a
total, terminating function on all inputs. -/
theorem c10_scan_strictly_advances (prev : Option Char) (a : Char)
    (rest : List Char) :
    1 ≤ (mdStep prev a rest).2 ∧
      minConsumed (mdStep prev a rest).1 ≤ (mdStep prev a rest).2 ∧
      (mdStep prev a rest).2 ≤ (a :: rest).length := by
  obtain ⟨pre, post, _, _, hmin, hle⟩ := mdStep_take_decomp prev a rest
  refine ⟨?_, hmin, hle⟩
  have : 1 ≤ minConsumed (mdStep prev a rest).1 := by
    cases (mdStep prev a rest).1 <;> simp [minConsumed]
  omega

/-- C6 counterexample: on the fragment consisting of a hash, a space, a
line feed and the letter A, the scanner emits a Heading whose content is
the text of the *next* line (the greedy space-class quantifier of the
heading regex swallows the line break), while the claim's grammar — at
least one space and then the heading text up to the next line break —
matches no heading there (the text between the space and the line break
is empty). -/
theorem c6_counterexample_heading_crosses_newline :
    parseMarkdown ['#', ' ', '\n', 'A'] = [MdElem.header 1 ['A']] ∧
      headingClaim ['#', ' ', '\n', 'A'] = none := by
  constructor
  · rfl
  · rfl

/-- C6 amended: the scanner's step emits a Heading run with level `h`
and content `c` exactly when the scan position is the fragment start or
immediately follows a line feed and the remaining text starts with `h`
hash characters (1 ≤ h ≤ 6, the whole hash run), followed by a non-empty
whitespace run — which may contain line feeds, not only spaces — chosen
as long as possible while leaving a non-empty run of non-line-feed
characters right after it; that run, ending at the next line feed or at
the end of input, is the content. -/
theorem c6_amended_heading_characterization (prev : Option Char)
    (a : Char) (rest : List Char) (h : Nat) (c : List Char) :
    (∃ n, mdStep prev a rest = (MdElem.header h c, n)) ↔
      atLineStart prev = true ∧ HeadingDecomp (a :: rest) h c := by
  constructor
  · rintro ⟨n, hstep⟩
    rcases mdStep_inv prev a rest with hsh | hb | hi | hcd | hp
    · rw [hstep] at hsh
      obtain ⟨ha, hst, hh, cc, hr1, hm⟩ :=
        stepHeading_some_inv prev a rest _ hsh
      simp only [MdElem.header.injEq] at hr1
      obtain ⟨hh1, hh2⟩ := hr1
      subst hh1
      subst hh2
      exact ⟨hst, headingDecomp_of_headMatch (a :: rest) h c n hm⟩
    · rw [hstep] at hb
      obtain ⟨rest2, e, _, _, _, _, hr⟩ := stepBold_some_inv a rest _ hb
      injection hr with hr1 hr2
      exact absurd hr1 (by simp)
    · rw [hstep] at hi
      obtain ⟨e, _, _, _, hr⟩ := stepItalic_some_inv prev a rest _ hi
      injection hr with hr1 hr2
      exact absurd hr1 (by simp)
    · rw [hstep] at hcd
      obtain ⟨e, _, _, _, hr⟩ := stepCode_some_inv a rest _ hcd
      injection hr with hr1 hr2
      exact absurd hr1 (by simp)
    · rw [hstep] at hp
      unfold stepPlain at hp
      injection hp with hp1 hp2
      exact absurd hp1 (by simp)
  · rintro ⟨hst, hd⟩
    have ha : a = '#' := by
      obtain ⟨h1, _, _, _, s, r, hl, _⟩ := hd
      obtain ⟨m, rfl⟩ : ∃ m, h = m + 1 := ⟨h - 1, by omega⟩
      rw [List.replicate_succ] at hl
      simp only [List.cons_append] at hl
      have hhd := congrArg List.head? hl
      simpa using hhd
    obtain ⟨n, hm⟩ := headMatch_of_headingDecomp (a :: rest) h c hd
    refine ⟨n, mdStep_eq_heading prev a rest _
      (stepHeading_of_headMatch prev a rest h c n ha hst hm)⟩

theorem parseMarkdownFuel_decomp :
    ∀ fuel (prev : Option Char) (l : List Char), l.length ≤ fuel →
      ∃ blocks : List (List Char × List Char × List Char),
        l = (blocks.map fun b => b.1 ++ b.2.1 ++ b.2.2).flatten ∧
        blocks.map (fun b => b.2.1) =
          (parseMarkdownFuel fuel prev l).map MdElem.content ∧
        ∀ b ∈ blocks, ((b.1 ++ b.2.2).all isMarkerChar) = true := by
  intro fuel
  induction fuel with
  | zero =>
    intro prev l hl
    have : l = [] := List.eq_nil_of_length_eq_zero (Nat.le_zero.mp hl)
    subst this
    exact ⟨[], by simp, by simp [parseMarkdownFuel], by simp⟩
  | succ fuel ih =>
    intro prev l hl
    match l with
    | [] => exact ⟨[], by simp, by simp [parseMarkdownFuel], by simp⟩
    | a :: rest =>
      obtain ⟨pre, post, htake, hmark, hmin, hle⟩ :=
        mdStep_take_decomp prev a rest
      have h1 : 1 ≤ (mdStep prev a rest).2 := by
        have hminpos : 1 ≤ minConsumed (mdStep prev a rest).1 := by
          cases (mdStep prev a rest).1 <;> simp [minConsumed]
        omega
      have hrec : ((a :: rest).drop (mdStep prev a rest).2).length ≤ fuel := by
        rw [List.length_drop]
        simp only [List.length_cons] at hl ⊢
        omega
      obtain ⟨blocks, hbl, hbmap, hbmark⟩ :=
        ih (((a :: rest).drop ((mdStep prev a rest).2 - 1)).head?)
          ((a :: rest).drop (mdStep prev a rest).2) hrec
      refine ⟨(pre, (mdStep prev a rest).1.content, post) :: blocks, ?_, ?_, ?_⟩
      · simp only [List.map_cons, List.flatten_cons]
        rw [← hbl, ← htake, List.take_append_drop]
      · simp only [List.map_cons]
        rw [hbmap]
        rfl
      · intro b hb
        simp only [List.mem_cons] at hb
        rcases hb with hb | hb
        · subst hb
          exact hmark
        · exact hbmark b hb

/-- C5: concatenating the content strings of all runs produced by the
tokenizer, in sequence order, reconstructs the fragment with exactly its
markup markers removed: the fragment decomposes, block by block in
left-to-right order, into an optional marker prefix, the run's content,
and an optional marker suffix, where the removed prefixes and suffixes
consist only of marker characters (hashes, the heading's whitespace
separator, asterisks, backticks); consequently the concatenation is a
sublist of the fragment with content and order preserved. -/
theorem c5_contents_reconstruct_fragment (l : List Char) :
    (∃ blocks : List (List Char × List Char × List Char),
      l = (blocks.map fun b => b.1 ++ b.2.1 ++ b.2.2).flatten ∧
      concatContents (parseMarkdown l) =
        (blocks.map fun b => b.2.1).flatten ∧
      ∀ b ∈ blocks, ((b.1 ++ b.2.2).all isMarkerChar) = true) ∧
    List.Sublist (concatContents (parseMarkdown l)) l := by
  obtain ⟨blocks, hbl, hbmap, hbmark⟩ :=
    parseMarkdownFuel_decomp l.length none l le_rfl
  have hcc : concatContents (parseMarkdown l) =
      (blocks.map fun b => b.2.1).flatten := by
    unfold concatContents parseMarkdown
    rw [hbmap]
  refine ⟨⟨blocks, hbl, hcc, hbmark⟩, ?_⟩
  rw [hcc]
  conv_rhs => rw [hbl]
  clear hbl hbmap hbmark hcc
  induction blocks with
  | nil => simp
  | cons b bs ih =>
    simp only [List.map_cons, List.flatten_cons]
    refine List.Sublist.append ?_ ih
    have h1 : List.Sublist b.2.1 (b.2.1 ++ b.2.2) :=
      List.sublist_append_left b.2.1 b.2.2
    have h2 : List.Sublist (b.2.1 ++ b.2.2) (b.1 ++ (b.2.1 ++ b.2.2)) :=
      List.sublist_append_right b.1 (b.2.1 ++ b.2.2)
    have h3 := h1.trans h2
    rw [← List.append_assoc] at h3
    exact h3

theorem wordsAux_no_ws (l : List Char) :
    ∀ cur, (∀ x ∈ cur, jsWs x = false) →
      ∀ w ∈ wordsAux cur l, ∀ x ∈ w, jsWs x = false := by
  induction l with
  | nil =>
    intro cur hcur w hw x hx
    unfold wordsAux at hw
    by_cases hc : cur = []
    · rw [if_pos hc] at hw
      cases hw
    · rw [if_neg hc] at hw
      simp only [List.mem_singleton] at hw
      subst hw
      exact hcur x (by simpa using hx)
  | cons a rest ih =>
    intro cur hcur w hw x hx
    unfold wordsAux at hw
    by_cases ha : jsWs a = true
    · rw [if_pos ha] at hw
      by_cases hc : cur = []
      · rw [if_pos hc] at hw
        exact ih [] (by simp) w hw x hx
      · rw [if_neg hc] at hw
        simp only [List.mem_cons] at hw
        rcases hw with hw | hw
        · subst hw
          exact hcur x (by simpa using hx)
        · exact ih [] (by simp) w hw x hx
    · rw [if_neg ha] at hw
      refine ih (a :: cur) ?_ w hw x hx
      intro y hy
      simp only [List.mem_cons] at hy
      rcases hy with hy | hy
      · subst hy
        exact Bool.eq_false_iff.mpr ha
      · exact hcur y hy

theorem wordsOf_no_ws (l : List Char) :
    ∀ w ∈ wordsOf l, ∀ x ∈ w, jsWs x = false :=
  wordsAux_no_ws l [] (by simp)

theorem segWord_plain (w : List Char) (b i cd : Bool)
    (hw : ∀ x ∈ w, jsWs x = false) :
    segWord ⟨w, b, i, cd⟩ = w := by
  unfold segWord
  rw [if_neg]
  intro hh
  cases w with
  | nil => cases hh
  | cons y ys =>
    have hy : y = ' ' := by simpa using hh
    subst hy
    have := hw ' ' (by simp)
    simp [jsWs] at this

theorem segWord_spaced (st : WrapState) (idx : Nat) (w : List Char)
    (b i cd : Bool) (hw : ∀ x ∈ w, jsWs x = false) :
    segWord ⟨spaced st idx w, b, i, cd⟩ = w := by
  unfold spaced
  by_cases hc : 0 < st.current.length ∨ 0 < idx
  · rw [if_pos hc]
    unfold segWord
    rw [if_pos (by rfl)]
    rfl
  · rw [if_neg hc]
    exact segWord_plain w b i cd hw

theorem flushLine_wordSeq (st : WrapState) :
    wordSeq (flushLine st) = wordSeq st := by
  unfold flushLine wordSeq
  by_cases hc : st.current = []
  · rw [if_pos hc]
  · rw [if_neg hc]
    simp [List.flatten_append]

theorem lineW_nil (mu : Measure) : lineW mu [] = 0 := rfl

theorem lineW_append (mu : Measure) (l1 l2 : List Seg) :
    lineW mu (l1 ++ l2) = lineW mu l1 + lineW mu l2 := by
  unfold lineW
  rw [List.map_append, List.sum_append]

theorem lineW_singleton (mu : Measure) (sg : Seg) :
    lineW mu [sg] = mu sg.text sg.isBold sg.isItalic sg.isCode := by
  unfold lineW
  simp

theorem flushLine_inv (mu : Measure) (maxw indent : ℚ) (st : WrapState)
    (h : WrapInv mu maxw indent st) :
    WrapInv mu maxw indent (flushLine st) := by
  obtain ⟨h1, h2, h3⟩ := h
  unfold flushLine
  by_cases hc : st.current = []
  · rw [if_pos hc]
    exact ⟨h1, h2, h3⟩
  · rw [if_neg hc]
    refine ⟨by simp [lineW_nil], ?_, by intro hh; simp at hh⟩
    intro L hL h2L
    simp only [List.mem_append, List.mem_singleton] at hL
    rcases hL with hL | hL
    · exact h2 L hL h2L
    · subst hL
      rw [← h1]
      exact h3 h2L

theorem addWords_wordSeq (mu : Measure) (maxw indent : ℚ) (b i cd : Bool) :
    ∀ (ws : List (List Char)) (st : WrapState) (idx : Nat),
      (∀ w ∈ ws, ∀ x ∈ w, jsWs x = false) →
      wordSeq (addWords mu maxw indent b i cd st idx ws) =
        wordSeq st ++ ws := by
  intro ws
  induction ws with
  | nil =>
    intro st idx _
    simp [addWords]
  | cons w ws ih =>
    intro st idx hws
    have hwno : ∀ x ∈ w, jsWs x = false := hws w (by simp)
    have hwstail : ∀ v ∈ ws, ∀ x ∈ v, jsWs x = false :=
      fun v hv => hws v (by simp [hv])
    unfold addWords
    by_cases hcond : st.width + mu (spaced st idx w) b i cd > maxw - indent ∧
        st.current ≠ []
    · rw [if_pos hcond]
      rw [ih _ _ hwstail]
      unfold wordSeq
      simp only [List.flatten_append, List.flatten_cons, List.flatten_nil,
        List.append_nil, List.map_append, List.append_assoc,
        List.map_cons, List.map_nil]
      rw [segWord_plain w b i cd hwno]
      rfl
    · rw [if_neg hcond]
      rw [ih _ _ hwstail]
      unfold wordSeq
      simp only [List.map_append, List.append_assoc, List.map_cons,
        List.map_nil]
      rw [segWord_spaced st idx w b i cd hwno]
      rfl

theorem addWords_inv (mu : Measure) (maxw indent : ℚ) (b i cd : Bool) :
    ∀ (ws : List (List Char)) (st : WrapState) (idx : Nat),
      WrapInv mu maxw indent st →
      WrapInv mu maxw indent (addWords mu maxw indent b i cd st idx ws) := by
  intro ws
  induction ws with
  | nil =>
    intro st idx h
    simpa [addWords] using h
  | cons w ws ih =>
    intro st idx h
    obtain ⟨h1, h2, h3⟩ := h
    unfold addWords
    by_cases hcond : st.width + mu (spaced st idx w) b i cd > maxw - indent ∧
        st.current ≠ []
    · rw [if_pos hcond]
      apply ih
      refine ⟨by rw [lineW_singleton], ?_, by intro hh; simp at hh⟩
      intro L hL h2L
      simp only [List.mem_append, List.mem_singleton] at hL
      rcases hL with hL | hL
      · exact h2 L hL h2L
      · subst hL
        rw [← h1]
        exact h3 h2L
    · rw [if_neg hcond]
      apply ih
      refine ⟨?_, h2, ?_⟩
      · rw [lineW_append, lineW_singleton, h1]
      · intro hlen
        rcases not_and_or.mp hcond with hc | hc
        · push_neg at hc
          exact hc
        · push_neg at hc
          rw [hc] at hlen
          simp at hlen

theorem addElem_wordSeq (mu : Measure) (maxw indent : ℚ) (st : WrapState)
    (e : MdElem) :
    wordSeq (addElem mu maxw indent st e) =
      wordSeq st ++ wordsOf e.content := by
  cases e with
  | text c =>
    exact addWords_wordSeq mu maxw indent false false false (wordsOf c) st 0
      (wordsOf_no_ws c)
  | bold c =>
    exact addWords_wordSeq mu maxw indent true false false (wordsOf c) st 0
      (wordsOf_no_ws c)
  | italic c =>
    exact addWords_wordSeq mu maxw indent false true false (wordsOf c) st 0
      (wordsOf_no_ws c)
  | code c =>
    exact addWords_wordSeq mu maxw indent false false true (wordsOf c) st 0
      (wordsOf_no_ws c)
  | header lvl c =>
    show wordSeq (flushLine (addToLine mu maxw indent (flushLine st) c
      true false false)) = _
    rw [flushLine_wordSeq]
    unfold addToLine
    rw [addWords_wordSeq mu maxw indent true false false (wordsOf c)
      (flushLine st) 0 (wordsOf_no_ws c), flushLine_wordSeq]
    rfl

theorem addElem_inv (mu : Measure) (maxw indent : ℚ) (st : WrapState)
    (e : MdElem) (h : WrapInv mu maxw indent st) :
    WrapInv mu maxw indent (addElem mu maxw indent st e) := by
  cases e with
  | text c => exact addWords_inv mu maxw indent false false false _ st 0 h
  | bold c => exact addWords_inv mu maxw indent true false false _ st 0 h
  | italic c => exact addWords_inv mu maxw indent false true false _ st 0 h
  | code c => exact addWords_inv mu maxw indent false false true _ st 0 h
  | header lvl c =>
    exact flushLine_inv mu maxw indent _
      (addWords_inv mu maxw indent true false false _ _ 0
        (flushLine_inv mu maxw indent st h))

theorem foldl_addElem_wordSeq (mu : Measure) (maxw indent : ℚ) :
    ∀ (els : List MdElem) (st : WrapState),
      wordSeq (els.foldl (addElem mu maxw indent) st) =
        wordSeq st ++ (els.map fun e => wordsOf e.content).flatten := by
  intro els
  induction els with
  | nil =>
    intro st
    simp
  | cons e els ih =>
    intro st
    simp only [List.foldl_cons, List.map_cons, List.flatten_cons]
    rw [ih, addElem_wordSeq, List.append_assoc]

theorem foldl_addElem_inv (mu : Measure) (maxw indent : ℚ) :
    ∀ (els : List MdElem) (st : WrapState), WrapInv mu maxw indent st →
      WrapInv mu maxw indent (els.foldl (addElem mu maxw indent) st) := by
  intro els
  induction els with
  | nil =>
    intro st h
    exact h
  | cons e els ih =>
    intro st h
    exact ih _ (addElem_inv mu maxw indent st e h)

/-- C7: for every run sequence and every configuration with positive
usable width, the greedy word-wrapping never places a single word across
two lines — the words held by the flushed lines, each a whole word of
the input in order, are exactly the input's word sequence — and every
flushed line holding more than one word has total measured width at most
the usable line width. -/
theorem c7_greedy_wrapping (mu : Measure) (maxw indent : ℚ)
    (els : List MdElem) (_hpos : 0 < maxw - indent) :
    (∀ L ∈ (addFormattedText mu maxw indent els).flushed,
      2 ≤ L.length → lineW mu L ≤ maxw - indent) ∧
    wordSeq (addFormattedText mu maxw indent els) =
      (els.map fun e => wordsOf e.content).flatten := by
  have hinv0 : WrapInv mu maxw indent ⟨[], [], 0⟩ :=
    ⟨by simp [lineW_nil], by simp, by intro hh; simp at hh⟩
  have hinv := flushLine_inv mu maxw indent _
    (foldl_addElem_inv mu maxw indent els _ hinv0)
  refine ⟨hinv.2.1, ?_⟩
  unfold addFormattedText
  rw [flushLine_wordSeq, foldl_addElem_wordSeq]
  simp [wordSeq]

/-- Witness for C7. -/
theorem c7_greedy_wrapping_witness :
    (0 : ℚ) < 10 - 0 ∧
      ((∀ L ∈ (addFormattedText lenMeasure 10 0
          [MdElem.text ['a', 'b', ' ', 'c', 'd']]).flushed,
        2 ≤ L.length → lineW lenMeasure L ≤ 10 - 0) ∧
      wordSeq (addFormattedText lenMeasure 10 0
          [MdElem.text ['a', 'b', ' ', 'c', 'd']]) =
        ([MdElem.text ['a', 'b', ' ', 'c', 'd']].map fun e =>
          wordsOf e.content).flatten) :=
  ⟨by norm_num,
   c7_greedy_wrapping lenMeasure 10 0 [MdElem.text ['a', 'b', ' ', 'c', 'd']]
     (by norm_num)⟩

theorem addWords_zero_width (mu : Measure) (maxw indent : ℚ)
    (b i cd : Bool) (h0 : maxw - indent ≤ 0)
    (hpos : ∀ w bb ii cc, 0 < mu w bb ii cc) :
    ∀ (ws : List (List Char)) (st : WrapState) (idx : Nat),
      (∀ L ∈ st.flushed, L.length = 1) → st.current.length ≤ 1 →
      st.width = lineW mu st.current →
      (∀ L ∈ (addWords mu maxw indent b i cd st idx ws).flushed,
        L.length = 1) ∧
      (addWords mu maxw indent b i cd st idx ws).current.length ≤ 1 ∧
      (addWords mu maxw indent b i cd st idx ws).width =
        lineW mu (addWords mu maxw indent b i cd st idx ws).current := by
  intro ws
  induction ws with
  | nil =>
    intro st idx h1 h2 h3
    simpa [addWords] using ⟨h1, h2, h3⟩
  | cons w ws ih =>
    intro st idx h1 h2 h3
    unfold addWords
    by_cases hcond : st.width + mu (spaced st idx w) b i cd > maxw - indent ∧
        st.current ≠ []
    · rw [if_pos hcond]
      refine ih _ _ ?_ (by simp) (by rw [lineW_singleton])
      intro L hL
      simp only [List.mem_append, List.mem_singleton] at hL
      rcases hL with hL | hL
      · exact h1 L hL
      · subst hL
        have hge : 1 ≤ st.current.length :=
          List.length_pos.mpr hcond.2
        omega
    · rw [if_neg hcond]
      have hcur : st.current = [] := by
        by_contra hne
        apply hcond
        refine ⟨?_, hne⟩
        have hw1 : 0 < mu (spaced st idx w) b i cd := hpos _ _ _ _
        have hw0 : 0 ≤ st.width := by
          rw [h3]
          cases hc : st.current with
          | nil => simp [lineW_nil]
          | cons x xs =>
            have hxs : xs = [] := by
              rw [hc] at h2
              simpa using h2
            subst hxs
            rw [lineW_singleton]
            exact le_of_lt (hpos _ _ _ _)
        linarith
      refine ih _ _ h1 (by rw [hcur]; simp) ?_
      rw [hcur] at h3 ⊢
      rw [lineW_nil] at h3
      simp only [List.nil_append]
      rw [lineW_singleton, h3]
      ring

theorem flushLine_zero_width (mu : Measure) (st : WrapState)
    (h1 : ∀ L ∈ st.flushed, L.length = 1) (h2 : st.current.length ≤ 1)
    (h3 : st.width = lineW mu st.current) :
    (∀ L ∈ (flushLine st).flushed, L.length = 1) ∧
      (flushLine st).current.length ≤ 1 ∧
      (flushLine st).width = lineW mu (flushLine st).current := by
  unfold flushLine
  by_cases hc : st.current = []
  · rw [if_pos hc]
    exact ⟨h1, h2, h3⟩
  · rw [if_neg hc]
    refine ⟨?_, by simp, by simp [lineW_nil]⟩
    intro L hL
    simp only [List.mem_append, List.mem_singleton] at hL
    rcases hL with hL | hL
    · exact h1 L hL
    · subst hL
      have hge : 1 ≤ st.current.length := List.length_pos.mpr hc
      omega

theorem addElem_zero_width (mu : Measure) (maxw indent : ℚ)
    (h0 : maxw - indent ≤ 0) (hpos : ∀ w bb ii cc, 0 < mu w bb ii cc)
    (st : WrapState) (e : MdElem)
    (h1 : ∀ L ∈ st.flushed, L.length = 1) (h2 : st.current.length ≤ 1)
    (h3 : st.width = lineW mu st.current) :
    (∀ L ∈ (addElem mu maxw indent st e).flushed, L.length = 1) ∧
      (addElem mu maxw indent st e).current.length ≤ 1 ∧
      (addElem mu maxw indent st e).width =
        lineW mu (addElem mu maxw indent st e).current := by
  cases e with
  | text c => exact addWords_zero_width mu maxw indent _ _ _ h0 hpos _ st 0 h1 h2 h3
  | bold c => exact addWords_zero_width mu maxw indent _ _ _ h0 hpos _ st 0 h1 h2 h3
  | italic c => exact addWords_zero_width mu maxw indent _ _ _ h0 hpos _ st 0 h1 h2 h3
  | code c => exact addWords_zero_width mu maxw indent _ _ _ h0 hpos _ st 0 h1 h2 h3
  | header lvl c =>
    obtain ⟨g1, g2, g3⟩ := flushLine_zero_width mu st h1 h2 h3
    obtain ⟨f1, f2, f3⟩ := addWords_zero_width mu maxw indent true false false
      h0 hpos (wordsOf c) (flushLine st) 0 g1 g2 g3
    exact flushLine_zero_width mu _ f1 f2 f3

/-- C9 counterexample: with the hard-coded 20-unit margins replaced by a
configuration whose usable width is zero, the renderer performs no
assertion and silently produces output — here the two words of the
input each land on their own flushed line.  `exportToPdf` contains no
construction-time check of the usable width at all
(src/unnamed/part_001, lines 247-252 compute `maxWidth` and use it
directly), so no error can be reported before rendering. -/
theorem c9_counterexample_silent_output :
    addFormattedText lenMeasure 0 0 [MdElem.text ['a', 'b', ' ', 'c', 'd']] =
      ⟨[[⟨['a', 'b'], false, false, false⟩],
        [⟨['c', 'd'], false, false, false⟩]], [], 0⟩ ∧
    (addFormattedText lenMeasure 0 0
        [MdElem.text ['a', 'b', ' ', 'c', 'd']]).flushed ≠ [] := by
  have hmain : addFormattedText lenMeasure 0 0
      [MdElem.text ['a', 'b', ' ', 'c', 'd']] =
      ⟨[[⟨['a', 'b'], false, false, false⟩],
        [⟨['c', 'd'], false, false, false⟩]], [], 0⟩ := by
    norm_num [addFormattedText, addElem, addToLine, wordsOf, wordsAux,
      addWords, spaced, flushLine, lenMeasure, jsWs, MdElem.content]
  refine ⟨hmain, ?_⟩
  rw [hmain]
  simp

/-- C9 amended: the renderer has no usable-width precondition check; on
a configuration with no usable width it still runs to completion and
silently produces output — every word of the input is emitted, one word
per flushed line (for any strictly positive width metric). -/
theorem c9_amended_zero_width_silent (mu : Measure) (maxw indent : ℚ)
    (els : List MdElem) (h0 : maxw - indent ≤ 0)
    (hpos : ∀ w bb ii cc, 0 < mu w bb ii cc) :
    (∀ L ∈ (addFormattedText mu maxw indent els).flushed, L.length = 1) ∧
    wordSeq (addFormattedText mu maxw indent els) =
      (els.map fun e => wordsOf e.content).flatten := by
  have hfold : ∀ (es : List MdElem) (st : WrapState),
      (∀ L ∈ st.flushed, L.length = 1) → st.current.length ≤ 1 →
      st.width = lineW mu st.current →
      (∀ L ∈ (es.foldl (addElem mu maxw indent) st).flushed, L.length = 1) ∧
        (es.foldl (addElem mu maxw indent) st).current.length ≤ 1 ∧
        (es.foldl (addElem mu maxw indent) st).width =
          lineW mu (es.foldl (addElem mu maxw indent) st).current := by
    intro es
    induction es with
    | nil =>
      intro st h1 h2 h3
      exact ⟨h1, h2, h3⟩
    | cons e es ih =>
      intro st h1 h2 h3
      obtain ⟨g1, g2, g3⟩ :=
        addElem_zero_width mu maxw indent h0 hpos st e h1 h2 h3
      exact ih _ g1 g2 g3
  obtain ⟨g1, g2, g3⟩ := hfold els ⟨[], [], 0⟩ (by simp) (by simp)
    (by simp [lineW_nil])
  refine ⟨(flushLine_zero_width mu _ g1 g2 g3).1, ?_⟩
  unfold addFormattedText
  rw [flushLine_wordSeq, foldl_addElem_wordSeq]
  simp [wordSeq]

/-- Witness for C9's amended theorem. -/
theorem c9_amended_zero_width_silent_witness :
    ((0 : ℚ) - 0 ≤ 0 ∧ ∀ w bb ii cc, 0 < posMeasure w bb ii cc) ∧
      ((∀ L ∈ (addFormattedText posMeasure 0 0
          [MdElem.text ['h', 'i']]).flushed, L.length = 1) ∧
      wordSeq (addFormattedText posMeasure 0 0 [MdElem.text ['h', 'i']]) =
        ([MdElem.text ['h', 'i']].map fun e => wordsOf e.content).flatten) :=
  ⟨⟨by norm_num, fun w bb ii cc => by unfold posMeasure; positivity⟩,
   c9_amended_zero_width_silent posMeasure 0 0 [MdElem.text ['h', 'i']]
     (by norm_num) (fun w bb ii cc => by unfold posMeasure; positivity)⟩

/-- C1: the segmentation selector's choice follows the spec's stated
precedence: double-line-break candidate by default, switched to the
single-line-break candidate only when the default yields fewer than 3
paragraphs and the single candidate strictly more, then reverted to the
double-line-break candidate whenever the current choice yields more than
50 paragraphs at least one of which is shorter than 20 characters. -/
theorem c1_selector_precedence (text : List Char) :
    splitTextIntoParagraphs text =
      selectorSpec (candDouble (normalizeText text))
        (candSingle (normalizeText text)) := by
  unfold splitTextIntoParagraphs chooseSplit selectorSpec
  rfl

end LexicalSearch
